import Mathlib

/-! Operon: node records, operator kernels, n-ary dispatch, fitness facades, dataset
construction and command-line ranges.

A shallow embedding of `src/core/node.hpp`, `include/operon/core/eval_detail.hpp`,
the fitness facades of `include/operon/operators/evaluator.hpp`, the constructor of
`src/core/dataset.cpp` and the range handling of `src/cli/operon_gp.cpp`.

* machine indices (`size_t`) are natural numbers reduced modulo `2^64`;
* an access outside a vector or outside the scratch matrix is modelled as `none`;
* scalars are elements of a field (exact arithmetic), a column of the scratch
  matrix is a function from the `BATCHSIZE` rows to scalars.
-/

namespace Operon

/-! ## node.hpp -/

/-- The enumeration `NodeType : uint16_t`. -/
inductive NodeType where
  | Add | Mul | Sub | Div | Log | Exp | Sin | Cos | Tan | Sqrt | Cbrt | Constant | Variable
  deriving DecidableEq, Repr

/-- The numeric value of an enumerator (`1u << k`). -/
def NodeType.val : NodeType → Nat
  | .Add => 1 <<< 0
  | .Mul => 1 <<< 1
  | .Sub => 1 <<< 2
  | .Div => 1 <<< 3
  | .Log => 1 <<< 4
  | .Exp => 1 <<< 5
  | .Sin => 1 <<< 6
  | .Cos => 1 <<< 7
  | .Tan => 1 <<< 8
  | .Sqrt => 1 <<< 9
  | .Cbrt => 1 <<< 10
  | .Constant => 1 <<< 11
  | .Variable => 1 <<< 12

/-- The record `struct Node`.  `Type_` is the field `Type`; `Parent` is left
uninitialised by the constructor, which is modelled by `none`. -/
structure Node where
  Type_ : NodeType
  IsLeaf : Bool
  IsCommutative : Bool
  IsEnabled : Bool
  Arity : Nat
  Length : Nat
  Parent : Option Nat
  HashValue : Nat
  CalculatedHashValue : Nat
  Value : ℚ
  deriving DecidableEq

/-- The constructor `Node(NodeType type, uint64_t hashValue)`. -/
def Node.new (type : NodeType) (hashValue : Nat) : Node :=
  let isCommutative := decide (type.val < NodeType.Sub.val)
  let arity : Nat :=
    if type.val < NodeType.Log.val then 2
    else if type.val < NodeType.Constant.val then 1
    else 0
  let length := arity
  let isLeaf := decide (arity = 0)
  let value : ℚ := if type = NodeType.Constant then 1 else 0
  { Type_ := type
    IsLeaf := isLeaf
    IsCommutative := isCommutative
    IsEnabled := true
    Arity := arity
    Length := length
    Parent := none
    HashValue := hashValue
    CalculatedHashValue := hashValue
    Value := value }

/-- The constructor `Node(NodeType type)`, delegating with the kind as hash. -/
def Node.ofType (type : NodeType) : Node :=
  Node.new type type.val

/-- The comparison `operator==`. -/
def Node.eq (a rhs : Node) : Bool :=
  decide (a.CalculatedHashValue = rhs.CalculatedHashValue)

/-- The comparison `operator!=`. -/
def Node.ne (a rhs : Node) : Bool :=
  !(Node.eq a rhs)

/-- The comparison `operator<`. -/
def Node.lt (a rhs : Node) : Bool :=
  if a.HashValue = rhs.HashValue then decide (a.CalculatedHashValue < rhs.CalculatedHashValue)
  else decide (a.HashValue < rhs.HashValue)

/-- The comparison `operator<=`. -/
def Node.le (a rhs : Node) : Bool :=
  Node.eq a rhs || Node.lt a rhs

/-- The comparison `operator>`. -/
def Node.gt (a rhs : Node) : Bool :=
  !(Node.le a rhs)

/-- The comparison `operator>=`. -/
def Node.ge (a rhs : Node) : Bool :=
  !(Node.lt a rhs)

/-- The binary kinds of the data model. -/
def NodeType.isBinary : NodeType → Bool
  | .Add | .Mul | .Sub | .Div => true
  | _ => false

/-- The unary kinds of the data model. -/
def NodeType.isUnary : NodeType → Bool
  | .Log | .Exp | .Sin | .Cos | .Tan | .Sqrt | .Cbrt => true
  | _ => false

/-- The leaf kinds of the data model. -/
def NodeType.isLeafKind : NodeType → Bool
  | .Constant | .Variable => true
  | _ => false

/-! ## eval_detail.hpp -/

/-- The constant `BATCHSIZE`: the number of rows of the scratch matrix. -/
abbrev BATCHSIZE : Nat := 64

/-- The number of values of `size_t`. -/
def SIZE : Nat := 2 ^ 64

/-- A column view of the scratch matrix (the type `Arg`): one scalar per row. -/
abbrev Column (α : Type) := Fin BATCHSIZE → α

/-- The scratch matrix, as the list of its columns (one per node). -/
abbrev Mat (α : Type) := List (Column α)

/-- The unary right fold `(args ∘ ...)` of a non-empty parameter pack `a, rest...`. -/
def foldPack {C : Type} (f : C → C → C) : C → List C → C
  | a, [] => a
  | a, b :: rest => f a (foldPack f b rest)

/-- The member `op<T, N>::apply(ret, arg1, args...)`: the value written to `ret`.
The primary template (addition) serves every kind without a specialisation. -/
def op.apply {α : Type} [Field α] (N : NodeType) (arg1 : Column α) (args : List (Column α)) :
    Column α :=
  match N, args with
  | .Sub, [] => -arg1
  | .Sub, a :: rest => arg1 - foldPack (· + ·) a rest
  | .Mul, [] => arg1
  | .Mul, a :: rest => arg1 * foldPack (· * ·) a rest
  | .Div, [] => arg1⁻¹
  | .Div, a :: rest => arg1 / foldPack (· * ·) a rest
  | _, [] => arg1
  | _, a :: rest => arg1 + foldPack (· + ·) a rest

/-- The member `op<T, N>::accumulate(ret, arg1, args...)`: the new value of `ret`. -/
def op.accumulate {α : Type} [Field α] (N : NodeType) (ret arg1 : Column α)
    (args : List (Column α)) : Column α :=
  match N, args with
  | .Sub, [] => ret - arg1
  | .Sub, a :: rest => ret - (arg1 + foldPack (· + ·) a rest)
  | .Mul, [] => ret * arg1
  | .Mul, a :: rest => ret * (arg1 * foldPack (· * ·) a rest)
  | .Div, [] => ret / arg1
  | .Div, a :: rest => ret / (arg1 * foldPack (· * ·) a rest)
  | _, [] => ret + arg1
  | _, a :: rest => ret + (arg1 + foldPack (· + ·) a rest)

/-- One kernel invocation issued by `dispatch_op`: `continued` tells `accumulate`
from `apply`, `args` are the operand columns `arg1, arg2, ...` in call order. -/
structure KernelCall where
  continued : Bool
  args : List Nat
  deriving DecidableEq, Repr

/-- The state threaded through `dispatch_op`: the scratch matrix, and (as a ghost
record) the kernel invocations made so far. -/
structure EvalState (α : Type) where
  m : Mat α
  calls : List KernelCall

/-- The lambda `nextArg` of `dispatch_op`: `i - (nodes[i].Length + 1)` in `size_t`. -/
def nextArg (nodes : List Node) (i : Nat) : Option Nat :=
  match nodes[i]? with
  | none => none
  | some nd => some ((i + SIZE - (nd.Length + 1) % SIZE) % SIZE)

/-- The conditional expression `continued ? op.accumulate(result, ...) : op.apply(result, ...)`
on the columns `m.col(arg1), m.col(args)...`, writing the column `result = m.col(parentIndex)`. -/
def invoke {α : Type} [Field α] (N : NodeType) (parentIndex : Nat) (continued : Bool)
    (arg1 : Nat) (args : List Nat) (s : EvalState α) : Option (EvalState α) :=
  match s.m[parentIndex]?, s.m[arg1]?, args.mapM (fun c => s.m[c]?) with
  | some ret, some x1, some xs =>
    let out := if continued then op.accumulate N ret x1 xs else op.apply N x1 xs
    some { m := s.m.set parentIndex out, calls := s.calls ++ [⟨continued, arg1 :: args⟩] }
  | _, _, _ => none

/-- The loop `while (arity > 0) { switch (arity) ... }` of `dispatch_op`. -/
def dispatch_loop {α : Type} [Field α] (N : NodeType) (nodes : List Node) (parentIndex : Nat) :
    Nat → Nat → Bool → EvalState α → Option (EvalState α)
  | 0, _, _, s => some s
  | 1, arg1, continued, s => invoke N parentIndex continued arg1 [] s
  | 2, arg1, continued, s =>
    (nextArg nodes arg1).bind fun arg2 =>
    invoke N parentIndex continued arg1 [arg2] s
  | 3, arg1, continued, s =>
    (nextArg nodes arg1).bind fun arg2 =>
    (nextArg nodes arg2).bind fun arg3 =>
    invoke N parentIndex continued arg1 [arg2, arg3] s
  | 4, arg1, continued, s =>
    (nextArg nodes arg1).bind fun arg2 =>
    (nextArg nodes arg2).bind fun arg3 =>
    (nextArg nodes arg3).bind fun arg4 =>
    invoke N parentIndex continued arg1 [arg2, arg3, arg4] s
  | arity + 5, arg1, continued, s =>
    (nextArg nodes arg1).bind fun arg2 =>
    (nextArg nodes arg2).bind fun arg3 =>
    (nextArg nodes arg3).bind fun arg4 =>
    (nextArg nodes arg4).bind fun arg5 =>
    (invoke N parentIndex continued arg1 [arg2, arg3, arg4, arg5] s).bind fun s' =>
    (nextArg nodes arg5).bind fun arg1' =>
    dispatch_loop N nodes parentIndex arity arg1' true s'

/-- The function `dispatch_op<T, N>(m, nodes, parentIndex)`. -/
def dispatch_op {α : Type} [Field α] (N : NodeType) (m : Mat α) (nodes : List Node)
    (parentIndex : Nat) : Option (EvalState α) :=
  match nodes[parentIndex]?, m[parentIndex]? with
  | some nd, some _ =>
    dispatch_loop N nodes parentIndex nd.Arity ((parentIndex + SIZE - 1) % SIZE) false ⟨m, []⟩
  | _, _ => none

/-! ## The child walk and the grouping of operands -/

/-- The column `m.col(c)` of a scratch matrix that has a column `c`. -/
def col {α : Type} [Field α] (m : Mat α) (c : Nat) : Column α :=
  (m[c]?).getD 0

/-- The child walk `c, c - Length(c) - 1, ...` of `n` steps from index `i`: the
indices visited, or `none` when an index leaves the node array (below `0` or
beyond its end). -/
def walkFrom (nodes : List Node) : Nat → Nat → Option (List Nat)
  | 0, _ => some []
  | n + 1, i =>
    match nodes[i]? with
    | none => none
    | some nd =>
      if n = 0 then some [i]
      else if nd.Length + 1 ≤ i then (walkFrom nodes n (i - (nd.Length + 1))).map (i :: ·)
      else none

/-- The child walk of the node at `p`: `c_1 = p - 1`, `c_{j+1} = c_j - Length(c_j) - 1`,
for `n` children (no index at all when `n = 0`). -/
def childWalk (nodes : List Node) (p : Nat) : Nat → Option (List Nat)
  | 0 => some []
  | n + 1 => if 1 ≤ p then walkFrom nodes (n + 1) (p - 1) else none

/-- One kernel invocation as a function of the old result column and the operands. -/
def kernel {α : Type} [Field α] (N : NodeType) (continued : Bool) (ret x1 : Column α)
    (xs : List (Column α)) : Column α :=
  if continued then op.accumulate N ret x1 xs else op.apply N x1 xs

/-- The value left in the result column when the operand columns are consumed in
groups of five, the first group by `apply` (unless `continued`), the others by
`accumulate`. -/
def grouped {α : Type} [Field α] (N : NodeType) : Bool → Column α → List (Column α) → Column α
  | _, ret, [] => ret
  | c, ret, [x1] => kernel N c ret x1 []
  | c, ret, [x1, x2] => kernel N c ret x1 [x2]
  | c, ret, [x1, x2, x3] => kernel N c ret x1 [x2, x3]
  | c, ret, [x1, x2, x3, x4] => kernel N c ret x1 [x2, x3, x4]
  | c, ret, x1 :: x2 :: x3 :: x4 :: x5 :: rest =>
    grouped N true (kernel N c ret x1 [x2, x3, x4, x5]) rest

/-- The kernel invocations that consume a list of operand indices in groups of five. -/
def callsOf : Bool → List Nat → List KernelCall
  | _, [] => []
  | c, [a1] => [⟨c, [a1]⟩]
  | c, [a1, a2] => [⟨c, [a1, a2]⟩]
  | c, [a1, a2, a3] => [⟨c, [a1, a2, a3]⟩]
  | c, [a1, a2, a3, a4] => [⟨c, [a1, a2, a3, a4]⟩]
  | c, a1 :: a2 :: a3 :: a4 :: a5 :: rest => ⟨c, [a1, a2, a3, a4, a5]⟩ :: callsOf true rest

/-! ## Postfix trees -/

/-- Modelled from the spec: the class `Tree` is not among the sources.  A tree is a
sequence of nodes in postfix order: the children of a node occupy the contiguous
subtree blocks immediately preceding it.  `snoc before children root` is the forest
`before` followed by one more tree, of root `root` and of child subtrees `children`. -/
inductive Forest where
  | nil : Forest
  | snoc (before : Forest) (children : Forest) (root : Node) : Forest

/-- The node array of a forest, in postfix order. -/
def Forest.nodes : Forest → List Node
  | .nil => []
  | .snoc before children root => before.nodes ++ (children.nodes ++ [root])

/-- The number of trees of a forest. -/
def Forest.count : Forest → Nat
  | .nil => 0
  | .snoc before _ _ => before.count + 1

/-- The number of nodes of a forest. -/
def Forest.size : Forest → Nat
  | .nil => 0
  | .snoc before children _ => before.size + (children.size + 1)

/-- Modelled from the spec: the metadata a tree carries, in the convention of the
sources.  Every node's `Arity` is the number of its children, and its `Length` is
the number of nodes of its child subtrees (so that `Length(tree) = root.Length + 1`
and the constructor's `Length = Arity` is right for a node over leaves). -/
def Forest.Valid : Forest → Prop
  | .nil => True
  | .snoc before children root =>
    before.Valid ∧ children.Valid ∧ root.Arity = children.count ∧ root.Length = children.size

/-- Validity of a forest can be checked by computation. -/
def Forest.decValid : (F : Forest) → Decidable F.Valid
  | .nil => isTrue trivial
  | .snoc before children root =>
    match Forest.decValid before, Forest.decValid children with
    | isTrue h1, isTrue h2 =>
      if h3 : root.Arity = children.count then
        if h4 : root.Length = children.size then isTrue ⟨h1, h2, h3, h4⟩
        else isFalse fun h => h4 h.2.2.2
      else isFalse fun h => h3 h.2.2.1
    | isFalse h1, _ => isFalse fun h => h1 h.1
    | _, isFalse h2 => isFalse fun h => h2 h.2.1

instance (F : Forest) : Decidable F.Valid := Forest.decValid F

/-- The positions of the roots of the trees of a forest laid out from position
`off`, the last tree first. -/
def Forest.roots (off : Nat) : Forest → List Nat
  | .nil => []
  | .snoc before children _ => (off + before.size + children.size) :: before.roots off

/-- Every node of a forest laid out from position `off`: its position, the node,
and the positions of the roots of its child subtrees (the last child first). -/
def Forest.entries : Nat → Forest → List (Nat × Node × List Nat)
  | _, .nil => []
  | off, .snoc before children root =>
    before.entries off ++ (children.entries (off + before.size) ++
      [(off + before.size + children.size, root, children.roots (off + before.size))])

/-- The field `nodes[c].Length`. -/
def lengthAt (nodes : List Node) (c : Nat) : Nat :=
  ((nodes[c]?).map Node.Length).getD 0

/-! ## evaluator.hpp -/

/-- The values of `Operon::Scalar`, an IEEE-754 type: the finite values (as
rationals), the two infinities and NaN. -/
inductive Scalar where
  | finite (q : ℚ)
  | posInf
  | negInf
  | nan
  deriving DecidableEq

/-- The classification `std::isfinite`. -/
def Scalar.isfinite : Scalar → Bool
  | .finite _ => true
  | _ => false

/-- The comparison `<` of IEEE-754 (false as soon as an operand is NaN). -/
def Scalar.lt : Scalar → Scalar → Bool
  | .nan, _ => false
  | _, .nan => false
  | .finite a, .finite b => decide (a < b)
  | .finite _, .posInf => true
  | .finite _, .negInf => false
  | .posInf, _ => false
  | .negInf, .negInf => false
  | .negInf, _ => true

/-- The comparison `>=` of IEEE-754 (false as soon as an operand is NaN). -/
def Scalar.ge : Scalar → Scalar → Bool
  | .nan, _ => false
  | _, .nan => false
  | .finite a, .finite b => decide (b ≤ a)
  | .finite _, .posInf => false
  | .finite _, .negInf => true
  | .posInf, _ => true
  | .negInf, .negInf => true
  | .negInf, _ => false

/-- The counters and the setting of `EvaluatorBase` that the facades use. -/
structure EvaluatorBase where
  fitnessEvaluations : Nat
  localEvaluations : Nat
  iterations : Nat

/-- The constant `NormalizedMeanSquaredErrorEvaluator::LowerBound`. -/
def NormalizedMeanSquaredErrorEvaluator.LowerBound : Scalar := .finite 0

/-- The member `NormalizedMeanSquaredErrorEvaluator::operator()`.  Its collaborators
are parameters: `UpperBound` is `Operon::Numeric::Max<Operon::Scalar>()`, `optimize`
is `OptimizeAutodiff` (the genotype it leaves and `summary.iterations.size()`),
`nmseOf` is `Evaluate`, the linear scaling and `NormalizedMeanSquaredError` on the
training range.  The result is the returned fitness, the genotype and the counters. -/
def NormalizedMeanSquaredErrorEvaluator.call {G : Type} (UpperBound : Scalar)
    (optimize : G → Nat → G × Nat) (nmseOf : G → Scalar) (self : EvaluatorBase)
    (genotype : G) : Scalar × G × EvaluatorBase :=
  let self1 := { self with fitnessEvaluations := self.fitnessEvaluations + 1 }
  let opt : G × EvaluatorBase :=
    if self1.iterations > 0 then
      let summary := optimize genotype self1.iterations
      (summary.1, { self1 with localEvaluations := self1.localEvaluations + summary.2 })
    else (genotype, self1)
  let nmse := nmseOf opt.1
  let nmse :=
    if !nmse.isfinite || nmse.lt NormalizedMeanSquaredErrorEvaluator.LowerBound then UpperBound
    else nmse
  (nmse, opt.1, opt.2)

/-! ## Concrete inputs -/

/-- The column a Constant leaf contributes: its value broadcast to every row. -/
def constColumn (v : ℚ) : Column ℚ := fun _ => v

/-- A Constant leaf as constructed by `Node(NodeType::Constant)`, with its value set. -/
def constNode (v : ℚ) : Node :=
  { Node.ofType NodeType.Constant with Value := v }

/-- A function node as constructed by `Node(type)`, with arity and length set. -/
def naryNode (type : NodeType) (arity length : Nat) : Node :=
  { Node.ofType type with Arity := arity, Length := length }

/-- The node array `[Const=2; Const=3; Const=4; Mul/arity=3]`. -/
def nodesS3 : List Node := [constNode 2, constNode 3, constNode 4, naryNode NodeType.Mul 3 3]

/-- The scratch matrix of `nodesS3` once its leaves are filled. -/
def matS3 : Mat ℚ := [constColumn 2, constColumn 3, constColumn 4, constColumn 0]

/-- The node array `[Const=10; Const=2; Const=3; Sub/arity=3]`. -/
def nodesS4 : List Node := [constNode 10, constNode 2, constNode 3, naryNode NodeType.Sub 3 3]

/-- The scratch matrix of `nodesS4` once its leaves are filled. -/
def matS4 : Mat ℚ := [constColumn 10, constColumn 2, constColumn 3, constColumn 0]

/-- The node array `[Const=3; Const=2; Const=10; Sub/arity=3]`. -/
def nodesS4r : List Node := [constNode 3, constNode 2, constNode 10, naryNode NodeType.Sub 3 3]

/-- The scratch matrix of `nodesS4r` once its leaves are filled. -/
def matS4r : Mat ℚ := [constColumn 3, constColumn 2, constColumn 10, constColumn 0]

/-- Six Constant leaves under a function node of arity six (one group of five and
a last group of one operand). -/
def nodes6 (type : NodeType) : List Node :=
  [constNode 1, constNode 2, constNode 3, constNode 4, constNode 5, constNode 100,
    naryNode type 6 6]

/-- The scratch matrix of `nodes6` once its leaves are filled. -/
def mat6 : Mat ℚ :=
  [constColumn 1, constColumn 2, constColumn 3, constColumn 4, constColumn 5, constColumn 100,
    constColumn 0]

/-- The tree `[Constant; Constant; Add]` with every node as its constructor makes it. -/
def treeAdd : Forest :=
  .snoc .nil (.snoc (.snoc .nil .nil (Node.ofType NodeType.Constant)) .nil
    (Node.ofType NodeType.Constant)) (Node.ofType NodeType.Add)

/-- The node array `[Constant; Constant; Add]` with `Length` counting the node
itself (1, 1 and 3). -/
def nodesInclusive : List Node :=
  [naryNode NodeType.Constant 0 1, naryNode NodeType.Constant 0 1, naryNode NodeType.Add 2 3]

/-! ## evaluator.hpp: the R² facade -/

/-- The comparison `>` of IEEE-754 (false as soon as an operand is NaN). -/
def Scalar.gt (a b : Scalar) : Bool :=
  Scalar.lt b a

/-- The product of IEEE-754, exact on finite values. -/
def Scalar.mul : Scalar → Scalar → Scalar
  | .nan, _ => .nan
  | _, .nan => .nan
  | .finite a, .finite b => .finite (a * b)
  | .finite a, .posInf => if 0 < a then .posInf else if a < 0 then .negInf else .nan
  | .finite a, .negInf => if 0 < a then .negInf else if a < 0 then .posInf else .nan
  | .posInf, .finite b => if 0 < b then .posInf else if b < 0 then .negInf else .nan
  | .negInf, .finite b => if 0 < b then .negInf else if b < 0 then .posInf else .nan
  | .posInf, .posInf => .posInf
  | .posInf, .negInf => .negInf
  | .negInf, .posInf => .negInf
  | .negInf, .negInf => .posInf

/-- The sum of IEEE-754, exact on finite values. -/
def Scalar.add : Scalar → Scalar → Scalar
  | .nan, _ => .nan
  | _, .nan => .nan
  | .finite a, .finite b => .finite (a + b)
  | .finite _, .posInf => .posInf
  | .finite _, .negInf => .negInf
  | .posInf, .negInf => .nan
  | .posInf, _ => .posInf
  | .negInf, .posInf => .nan
  | .negInf, _ => .negInf

/-- The difference of IEEE-754, exact on finite values. -/
def Scalar.sub : Scalar → Scalar → Scalar
  | .nan, _ => .nan
  | _, .nan => .nan
  | .finite a, .finite b => .finite (a - b)
  | .finite _, .posInf => .negInf
  | .finite _, .negInf => .posInf
  | .posInf, .posInf => .nan
  | .posInf, _ => .posInf
  | .negInf, .negInf => .nan
  | .negInf, _ => .negInf

/-- The constant `RSquaredEvaluator::LowerBound`. -/
def RSquaredEvaluator.LowerBound : Scalar := .finite 0

/-- The constant `RSquaredEvaluator::UpperBound`. -/
def RSquaredEvaluator.UpperBound : Scalar := .finite 1

/-- The literal `1e-12`: the double nearest to it, `4951760157141521 / 2^92`. -/
def RSquaredEvaluator.tolerance : Scalar := .finite (4951760157141521 / 2 ^ 92)

/-- The member `RSquaredEvaluator::operator()`.  Its collaborators are parameters:
`optimize` is `OptimizeAutodiff` (the genotype it leaves and
`summary.iterations.size()`), `pearson` is `Evaluate` followed by the Pearson
calculator on the training range, giving `NaiveVarianceX()` and `Correlation()`.
The result is the returned fitness, the genotype and the counters. -/
def RSquaredEvaluator.call {G : Type} (optimize : G → Nat → G × Nat)
    (pearson : G → Scalar × Scalar) (self : EvaluatorBase) (genotype : G) :
    Scalar × G × EvaluatorBase :=
  let self1 := { self with fitnessEvaluations := self.fitnessEvaluations + 1 }
  let opt : G × EvaluatorBase :=
    if self1.iterations > 0 then
      let summary := optimize genotype self1.iterations
      (summary.1, { self1 with localEvaluations := self1.localEvaluations + summary.2 })
    else (genotype, self1)
  let calculator := pearson opt.1
  let varX := calculator.1
  if varX.lt RSquaredEvaluator.tolerance then
    (RSquaredEvaluator.UpperBound, opt.1, opt.2)
  else
    let r := calculator.2
    let r2 := r.mul r
    let r2 :=
      if !r2.isfinite || r2.gt RSquaredEvaluator.UpperBound || r2.lt RSquaredEvaluator.LowerBound
      then Scalar.finite 0
      else r2
    ((RSquaredEvaluator.UpperBound.sub r2).add RSquaredEvaluator.LowerBound, opt.1, opt.2)

/-- A local optimizer instrumented with a count of its invocations: the genotype
is paired with the number of times the optimizer has run on it. -/
def countingOptimizer {G : Type} (optimize : G → Nat → G × Nat) :
    G × Nat → Nat → (G × Nat) × Nat :=
  fun g maxIterations =>
    (((optimize g.1 maxIterations).1, g.2 + 1), (optimize g.1 maxIterations).2)

/-! ## eval_detail.hpp: the naive n-ary dispatch -/

/-- The loop `for (size_t k = 1; k < arity; ++k)` of `dispatch_op_simple_nary`, with
the number of iterations left, the index `i` and the scratch matrix. -/
def simple_nary_loop {α : Type} [Field α] (N : NodeType) (nodes : List Node)
    (parentIndex : Nat) : Nat → Nat → Mat α → Option (Mat α)
  | 0, _, m => some m
  | k + 1, i, m =>
    (nextArg nodes i).bind fun i' =>
    match m[parentIndex]?, m[i']? with
    | some r, some x =>
      simple_nary_loop N nodes parentIndex k i' (m.set parentIndex (op.accumulate N r x []))
    | _, _ => none

/-- The function `dispatch_op_simple_nary<T, N>(m, nodes, parentIndex)`. -/
def dispatch_op_simple_nary {α : Type} [Field α] (N : NodeType) (m : Mat α)
    (nodes : List Node) (parentIndex : Nat) : Option (Mat α) :=
  match nodes[parentIndex]?, m[parentIndex]? with
  | some nd, some _ =>
    let arity := nd.Arity
    let i := (parentIndex + SIZE - 1) % SIZE
    if arity = 1 then
      match m[i]? with
      | some x => some (m.set parentIndex (op.apply N x []))
      | none => none
    else
      match m[i]? with
      | some x => simple_nary_loop N nodes parentIndex (arity - 1) i (m.set parentIndex x)
      | none => none
  | _, _ => none

/-- The value the naive dispatch leaves in the result column: the unary kernel on
one operand, else the first operand followed by one `accumulate` per operand. -/
def naive {α : Type} [Field α] (N : NodeType) : List (Column α) → Column α
  | [] => 0
  | [x1] => op.apply N x1 []
  | x1 :: xs => xs.foldl (fun r x => op.accumulate N r x []) x1

/-- The tree of five Constant leaves under an Add node of arity five. -/
def tree5 : Forest :=
  .snoc .nil
    (.snoc (.snoc (.snoc (.snoc (.snoc .nil .nil (constNode 1)) .nil (constNode 2)) .nil
      (constNode 3)) .nil (constNode 4)) .nil (constNode 5))
    (naryNode NodeType.Add 5 5)

/-! ## dataset.cpp -/

/-- The record `Variable` of a dataset column: name, hash id and column index. -/
structure Variable where
  Name : String
  Hash : Nat
  Index : Nat
  deriving DecidableEq, Repr

/-- The members `variables` and `values` of `Dataset` (the values column by column);
`variables_` is the member `variables`. -/
structure Dataset where
  variables_ : List Variable
  values : List (List Scalar)
  deriving DecidableEq

/-- What `csv::CSVReader` delivers: the column names (the first line of the file)
and the rows that follow, each field as its text. -/
structure CSVReader where
  col_names : List String
  rows : List (List String)

/-- The ways the constructor of `Dataset` does not complete: the exception
`std::runtime_error` it throws, or an access outside a vector (undefined behaviour). -/
inductive DatasetError where
  | runtime_error (what : String)
  | out_of_range
  deriving DecidableEq

/-- The loop `for (auto& field : row)` of the constructor, from the column index `i`:
`parse` is `field.is_num()` together with `field.get<double>()`. -/
def readFields (parse : String → Option Scalar) :
    List String → Nat → List (List Scalar) → Except DatasetError (List (List Scalar))
  | [], _, values => .ok values
  | field :: rest, i, values =>
    match parse field with
    | some value =>
      match values[i]? with
      | some column => readFields parse rest (i + 1) (values.set i (column ++ [value]))
      | none => .error .out_of_range
    | none =>
      .error (.runtime_error ("The field " ++ field ++ " could not be parsed as a number."))

/-- The loop `for (auto& row : reader)` of the constructor. -/
def readRows (parse : String → Option Scalar) :
    List (List String) → List (List Scalar) → Except DatasetError (List (List Scalar))
  | [], values => .ok values
  | row :: rest, values =>
    match readFields parse row 0 values with
    | .ok values' => readRows parse rest values'
    | .error e => .error e

/-- The loop that fills `variables[i].Name = names[i]` and `variables[i].Index = i`,
from index `i` for `n` more variables; `none` when `names[i]` does not exist. -/
def fillVariables (names : List String) : Nat → Nat → Option (List Variable)
  | _, 0 => some []
  | i, n + 1 =>
    match names[i]? with
    | none => none
    | some name => (fillVariables names (i + 1) n).map (⟨name, 0, i⟩ :: ·)

/-- The constructor `Dataset::Dataset(file, hasHeader)`.  Its collaborators are
parameters: `reader` is the CSV reader on the file, `parse` the numeric reading of a
field, `CompareWithSize` the comparison of names, `sort` the call of `std::sort` on
the variables, `jsf` the successive outputs of `Random::JsfRand<64> jsf(1234)`. -/
def Dataset.new (parse : String → Option Scalar) (CompareWithSize : String → String → Bool)
    (sort : (Variable → Variable → Bool) → List Variable → List Variable) (jsf : Nat → Nat)
    (reader : CSVReader) (hasHeader : Bool) : Except DatasetError Dataset :=
  let ncol := reader.col_names.length
  let names : List String := if hasHeader then reader.col_names else []
  match readRows parse reader.rows (List.replicate ncol []) with
  | .error e => .error e
  | .ok values =>
    match fillVariables names 0 ncol with
    | none => .error .out_of_range
    | some vars =>
      let sorted := sort (fun a b => CompareWithSize a.Name b.Name) vars
      let hashes := ((List.range ncol).map jsf).insertionSort (· ≤ ·)
      .ok { variables_ := List.zipWith (fun v h => { v with Hash := h }) sorted hashes
            values := values }

/-- The contract of `std::sort` with the comparison `lt`: the result is a
permutation of the input in which no element precedes an earlier one. -/
def SortsBy (sort : List Variable → List Variable) (lt : Variable → Variable → Bool) : Prop :=
  ∀ l, (sort l).Perm l ∧ (sort l).Pairwise (fun a b => lt b a = false)

/-- An instance of the comparison `CompareWithSize`: by size, then by text. -/
def compareWithSize (a b : String) : Bool :=
  decide (a.length < b.length ∨ (a.length = b.length ∧ a.toList < b.toList))

/-- An instance of `std::sort`: insertion sort. -/
def insertionSortBy (lt : Variable → Variable → Bool) (l : List Variable) : List Variable :=
  l.insertionSort (fun a b => lt b a = false)

/-- An instance of the numeric reading of a field: the texts `"1"`, `"2"`, `"3"`
and `"4"` are numbers, every other text is not. -/
def parseDigit (field : String) : Option Scalar :=
  if field = "1" then some (.finite 1)
  else if field = "2" then some (.finite 2)
  else if field = "3" then some (.finite 3)
  else if field = "4" then some (.finite 4)
  else none

/-- A file with the header `b,a` and two rows of numbers. -/
def readerBA : CSVReader := ⟨["b", "a"], [["1", "2"], ["3", "4"]]⟩

/-- A file with the header `a` and one row holding the number 1. -/
def readerA : CSVReader := ⟨["a"], [["1"]]⟩

/-! ## operon_gp.cpp -/

/-- The class `Range` (a pair of `size_t`), with its accessors `Start()` and `End()`. -/
structure Range where
  Start : Nat
  End : Nat
  deriving DecidableEq, Repr

/-- How the range handling of `main` ends: `exit(EXIT_FAILURE)` after the message
that the training range exceeds the available data range, `exit(EXIT_FAILURE)` after
the message of an invalid training range, or the run goes on with the two ranges. -/
inductive MainOutcome where
  | exit_failure_exceeds
  | exit_failure_invalid
  | proceed (trainingRange testRange : Range)
  deriving DecidableEq

/-- The range handling of `main`: `train` and `test` are the ranges parsed from the
options `--train` and `--test` when given, `rows` is `dataset.Rows()`. -/
def mainRanges (train test : Option Range) (rows : Nat) : MainOutcome :=
  let trainingRange : Range :=
    match train with
    | some r => r
    | none => ⟨0, (2 * rows % SIZE) / 3⟩
  if trainingRange.Start ≥ rows ∨ trainingRange.End > rows then .exit_failure_exceeds
  else if trainingRange.Start > trainingRange.End then .exit_failure_invalid
  else
    let testRange : Range :=
      match test with
      | some r => r
      | none =>
        if trainingRange.Start > 0 then ⟨0, trainingRange.Start⟩
        else if trainingRange.End < rows then ⟨trainingRange.End, rows⟩
        else ⟨0, 0⟩
    .proceed trainingRange testRange

/-! ## Further concrete inputs -/

/-- The call `std::generate(names.begin(), names.end(), ...)` of the constructor of
`Dataset` with the generator `fmt::format("X{}", ++i)`: every element that `names`
already has is replaced, the `k`-th (from 0) by `X` followed by `k + 1`.  The
constructor calls it on the empty `names`, which it leaves empty: this is the value
`[]` of `names` in `Dataset.new` when `hasHeader` is false. -/
def generatedNames (names : List String) : List String :=
  (List.range names.length).map (fun k => "X" ++ toString (k + 1))

/-- The node `Node(NodeType::Mul)` once its calculated hash is 5. -/
def nodeMul5 : Node :=
  { Node.ofType NodeType.Mul with CalculatedHashValue := 5 }

/-- The node `Node(NodeType::Add)` once its calculated hash is 5. -/
def nodeAdd5 : Node :=
  { Node.ofType NodeType.Add with CalculatedHashValue := 5 }

/-! ## The columns a kernel invocation reads -/

/-- The columns one kernel invocation of `dispatch_op` reads: its operand columns,
and for `accumulate` (`ret += ...`, `ret -= ...`, `ret *= ...`, `ret /= ...`) the
result column `parentIndex` as well; `apply` only writes the result column. -/
def readsOf (parentIndex : Nat) (call : KernelCall) : List Nat :=
  if call.continued then parentIndex :: call.args else call.args

/-- The forest of `n` Constant leaves. -/
def leaves : Nat → Forest
  | 0 => .nil
  | n + 1 => .snoc (leaves n) .nil (constNode 1)

/-- The tree of six Constant leaves under a Sub node of arity six; its node array
is `nodes6 NodeType.Sub`. -/
def tree6 : Forest :=
  .snoc .nil
    (.snoc (.snoc (.snoc (.snoc (.snoc (.snoc .nil .nil (constNode 1)) .nil (constNode 2)) .nil
      (constNode 3)) .nil (constNode 4)) .nil (constNode 5)) .nil (constNode 100))
    (naryNode NodeType.Sub 6 6)

/-- The tree of ten Constant leaves under an Add node of arity ten (two full groups
of five operands). -/
def tree10 : Forest :=
  .snoc .nil (leaves 10) (naryNode NodeType.Add 10 10)

/-- A scratch matrix of eleven columns for `tree10`. -/
def mat10 : Mat ℚ := List.replicate 11 (constColumn 1)

/-! ## The collaborators of the constructor of `Dataset` -/

theorem nextArg_of_getElem {nodes : List Node} {i : Nat} {nd : Node}
    (h : nodes[i]? = some nd) (hl : nd.Length + 1 ≤ i) (hi : i < SIZE) :
    nextArg nodes i = some (i - (nd.Length + 1)) := by
  have h1 : (nd.Length + 1) % SIZE = nd.Length + 1 := Nat.mod_eq_of_lt (by omega)
  have h2 : (i + SIZE - (nd.Length + 1)) % SIZE = i - (nd.Length + 1) := by
    have : i + SIZE - (nd.Length + 1) = (i - (nd.Length + 1)) + SIZE := by omega
    rw [this, Nat.add_mod_right]
    exact Nat.mod_eq_of_lt (by omega)
  simp [nextArg, h, h1, h2]

theorem nextArg_isSome {nodes : List Node} {i : Nat} {nd : Node}
    (h : nodes[i]? = some nd) : ∃ v, nextArg nodes i = some v := by
  simp [nextArg, h]

theorem walkFrom_succ {nodes : List Node} {k i : Nat} {cs : List Nat}
    (h : walkFrom nodes (k + 1) i = some cs) :
    ∃ nd, nodes[i]? = some nd ∧
      ((k = 0 ∧ cs = [i]) ∨
        (0 < k ∧ nd.Length + 1 ≤ i ∧
          ∃ cs', cs = i :: cs' ∧ walkFrom nodes k (i - (nd.Length + 1)) = some cs')) := by
  unfold walkFrom at h
  cases hnd : nodes[i]? with
  | none => simp [hnd] at h
  | some nd =>
    refine ⟨nd, rfl, ?_⟩
    simp only [hnd] at h
    by_cases hk : k = 0
    · simp [hk] at h
      exact Or.inl ⟨hk, h.symm⟩
    · simp only [hk, if_false] at h
      by_cases hl : nd.Length + 1 ≤ i
      · simp only [hl, if_true, Option.map_eq_some'] at h
        obtain ⟨cs', h1, h2⟩ := h
        exact Or.inr ⟨Nat.pos_of_ne_zero hk, hl, cs', h2.symm, h1⟩
      · simp [hl] at h

theorem walkFrom_le {nodes : List Node} : ∀ (n i : Nat) (cs : List Nat),
    walkFrom nodes n i = some cs → ∀ c ∈ cs, c ≤ i
  | 0, i, cs, h => by
    simp [walkFrom] at h
    subst h
    simp
  | n + 1, i, cs, h => by
    obtain ⟨nd, _, hc⟩ := walkFrom_succ h
    rcases hc with ⟨_, rfl⟩ | ⟨_, _, cs', rfl, hw⟩
    · simp
    · intro c hc
      rcases List.mem_cons.mp hc with rfl | hc
      · exact le_rfl
      · exact le_trans (walkFrom_le n _ cs' hw c hc) (Nat.sub_le _ _)

theorem walkFrom_length {nodes : List Node} : ∀ (n i : Nat) (cs : List Nat),
    walkFrom nodes n i = some cs → cs.length = n
  | 0, i, cs, h => by
    simp [walkFrom] at h
    subst h
    rfl
  | n + 1, i, cs, h => by
    obtain ⟨nd, _, hc⟩ := walkFrom_succ h
    rcases hc with ⟨rfl, rfl⟩ | ⟨_, _, cs', rfl, hw⟩
    · rfl
    · simp [walkFrom_length n _ cs' hw]

theorem childWalk_pos {nodes : List Node} {p n : Nat} {cs : List Nat}
    (h : childWalk nodes p n = some cs) (hn : 0 < n) :
    1 ≤ p ∧ walkFrom nodes n (p - 1) = some cs := by
  cases n with
  | zero => omega
  | succ n =>
    unfold childWalk at h
    by_cases h1 : 1 ≤ p
    · simp only [h1, if_true] at h
      exact ⟨h1, h⟩
    · simp [h1] at h

theorem childWalk_length {nodes : List Node} {p n : Nat} {cs : List Nat}
    (h : childWalk nodes p n = some cs) : cs.length = n := by
  cases n with
  | zero =>
    simp [childWalk] at h
    subst h
    rfl
  | succ n => exact walkFrom_length _ _ _ (childWalk_pos h (Nat.succ_pos n)).2

theorem mapM_col {α : Type} [Field α] (m : Mat α) : ∀ (args : List Nat),
    (∀ c ∈ args, c < m.length) → args.mapM (fun c => m[c]?) = some (args.map (col m))
  | [], _ => rfl
  | a :: rest, h => by
    have ha : a < m.length := h a (List.mem_cons_self _ _)
    have hr := mapM_col m rest (fun c hc => h c (List.mem_cons_of_mem _ hc))
    rw [List.mapM_cons, hr, List.getElem?_eq_getElem ha]
    simp [col, List.getElem?_eq_getElem ha]

theorem col_set_self {α : Type} [Field α] (m : Mat α) (p : Nat) (v : Column α)
    (hp : p < m.length) : col (m.set p v) p = v := by
  simp [col, hp]

theorem col_set_ne {α : Type} [Field α] (m : Mat α) (p c : Nat) (v : Column α)
    (hc : c ≠ p) : col (m.set p v) c = col m c := by
  simp [col, List.getElem?_set_ne (Ne.symm hc)]

theorem invoke_eq {α : Type} [Field α] (N : NodeType) (p : Nat) (continued : Bool)
    (a1 : Nat) (args : List Nat) (s : EvalState α)
    (hp : p < s.m.length) (h1 : a1 < p) (hargs : ∀ c ∈ args, c < p) :
    invoke N p continued a1 args s =
      some ⟨s.m.set p (kernel N continued (col s.m p) (col s.m a1) (args.map (col s.m))),
        s.calls ++ [⟨continued, a1 :: args⟩]⟩ := by
  have hm := mapM_col s.m args (fun c hc => lt_trans (hargs c hc) hp)
  have ha1 : a1 < s.m.length := lt_trans h1 hp
  simp only [invoke, hm, List.getElem?_eq_getElem hp, List.getElem?_eq_getElem ha1, kernel, col,
    Option.getD_some]

theorem walk_step {nodes : List Node} {k i : Nat} {cs : List Nat}
    (h : walkFrom nodes (k + 2) i = some cs) (hi : i < SIZE) :
    ∃ c' cs', nextArg nodes i = some c' ∧ c' < i ∧ cs = i :: cs' ∧
      walkFrom nodes (k + 1) c' = some cs' := by
  obtain ⟨nd, hnd, hc⟩ := walkFrom_succ h
  rcases hc with ⟨hk, _⟩ | ⟨_, hl, cs', rfl, hw⟩
  · omega
  · exact ⟨i - (nd.Length + 1), cs', nextArg_of_getElem hnd hl hi, by omega, rfl, hw⟩

theorem walk_last {nodes : List Node} {i : Nat} {cs : List Nat}
    (h : walkFrom nodes 1 i = some cs) : cs = [i] ∧ ∃ v, nextArg nodes i = some v := by
  obtain ⟨nd, hnd, hc⟩ := walkFrom_succ h
  rcases hc with ⟨_, rfl⟩ | ⟨hk, _⟩
  · exact ⟨rfl, nextArg_isSome hnd⟩
  · omega

/-- The loop of `dispatch_op` on a well-formed walk: it returns, the result column
holds the grouped value of the operand columns, and the kernel invocations are the
groups of five of the walk. -/
theorem dispatch_loop_eq {α : Type} [Field α] (N : NodeType) (nodes : List Node) (p : Nat)
    (hpS : p < SIZE) : ∀ (n i : Nat) (cont : Bool) (s : EvalState α) (cs : List Nat),
    0 < n → i < p → p < s.m.length → walkFrom nodes n i = some cs →
    dispatch_loop N nodes p n i cont s =
      some ⟨s.m.set p (grouped N cont (col s.m p) (cs.map (col s.m))),
        s.calls ++ callsOf cont cs⟩
  | 0, _, _, _, _, h0, _, _, _ => absurd h0 (lt_irrefl 0)
  | 1, i, cont, s, cs, _, hi, hp, hw => by
    obtain ⟨rfl, _⟩ := walk_last hw
    simp [dispatch_loop, invoke_eq N p cont i [] s hp hi (by simp), grouped, callsOf]
  | 2, i, cont, s, cs, _, hi, hp, hw => by
    obtain ⟨c2, cs2, hn2, hlt2, rfl, hw2⟩ := walk_step hw (lt_trans hi hpS)
    obtain ⟨rfl, _⟩ := walk_last hw2
    have hinv := invoke_eq N p cont i [c2] s hp hi (by simp; omega)
    simp [dispatch_loop, hn2, hinv, grouped, callsOf]
  | 3, i, cont, s, cs, _, hi, hp, hw => by
    obtain ⟨c2, cs2, hn2, hlt2, rfl, hw2⟩ := walk_step hw (lt_trans hi hpS)
    obtain ⟨c3, cs3, hn3, hlt3, rfl, hw3⟩ := walk_step hw2 (by omega)
    obtain ⟨rfl, _⟩ := walk_last hw3
    have hinv := invoke_eq N p cont i [c2, c3] s hp hi (by simp; omega)
    simp [dispatch_loop, hn2, hn3, hinv, grouped, callsOf]
  | 4, i, cont, s, cs, _, hi, hp, hw => by
    obtain ⟨c2, cs2, hn2, hlt2, rfl, hw2⟩ := walk_step hw (lt_trans hi hpS)
    obtain ⟨c3, cs3, hn3, hlt3, rfl, hw3⟩ := walk_step hw2 (by omega)
    obtain ⟨c4, cs4, hn4, hlt4, rfl, hw4⟩ := walk_step hw3 (by omega)
    obtain ⟨rfl, _⟩ := walk_last hw4
    have hinv := invoke_eq N p cont i [c2, c3, c4] s hp hi (by simp; omega)
    simp [dispatch_loop, hn2, hn3, hn4, hinv, grouped, callsOf]
  | n + 5, i, cont, s, cs, _, hi, hp, hw => by
    obtain ⟨c2, cs2, hn2, hlt2, rfl, hw2⟩ := walk_step hw (lt_trans hi hpS)
    obtain ⟨c3, cs3, hn3, hlt3, rfl, hw3⟩ := walk_step hw2 (by omega)
    obtain ⟨c4, cs4, hn4, hlt4, rfl, hw4⟩ := walk_step hw3 (by omega)
    obtain ⟨c5, cs5, hn5, hlt5, rfl, hw5⟩ := walk_step hw4 (by omega)
    have hinv := invoke_eq N p cont i [c2, c3, c4, c5] s hp hi (by simp; omega)
    obtain ⟨nd5, hnd5, hc⟩ := walkFrom_succ hw5
    rcases hc with ⟨rfl, rfl⟩ | ⟨hn, hl, cs6, rfl, hw6⟩
    · obtain ⟨v, hv⟩ := nextArg_isSome hnd5
      simp [dispatch_loop, hn2, hn3, hn4, hn5, hinv, hv, grouped, callsOf]
    · have hn6 := nextArg_of_getElem hnd5 hl (by omega)
      have hlt : ∀ c ∈ cs6, c ≠ p := fun c hc =>
        ne_of_lt (lt_of_le_of_lt (walkFrom_le n _ cs6 hw6 c hc) (by omega))
      have hcols : cs6.map (col (s.m.set p
          (kernel N cont (col s.m p) (col s.m i)
            ([c2, c3, c4, c5].map (col s.m))))) = cs6.map (col s.m) :=
        List.map_congr_left fun c hc => col_set_ne _ _ _ _ (hlt c hc)
      have ih := dispatch_loop_eq N nodes p hpS n (c5 - (nd5.Length + 1)) true
        ⟨s.m.set p (kernel N cont (col s.m p) (col s.m i) ([c2, c3, c4, c5].map (col s.m))),
          s.calls ++ [⟨cont, i :: [c2, c3, c4, c5]⟩]⟩ cs6 hn (by omega)
        (by simpa using hp) hw6
      simp only [dispatch_loop, hn2, hn3, hn4, hn5, hinv, hn6, Option.some_bind, ih]
      simp only [List.map_cons, List.map_nil] at hcols
      simp only [hcols, col_set_self _ _ _ hp, List.set_set, List.map_cons, grouped, callsOf,
        List.append_assoc, List.singleton_append, List.map_nil]

/-- The function `dispatch_op` on a well-formed walk, in terms of `grouped` and `callsOf`. -/
theorem dispatch_op_eq {α : Type} [Field α] (N : NodeType) (m : Mat α) (nodes : List Node)
    (p : Nat) (nd : Node) (cs : List Nat) (hnd : nodes[p]? = some nd) (hn : 0 < nd.Arity)
    (hp : p < m.length) (hpS : p < SIZE) (hw : childWalk nodes p nd.Arity = some cs) :
    dispatch_op N m nodes p =
      some ⟨m.set p (grouped N false (col m p) (cs.map (col m))), callsOf false cs⟩ := by
  obtain ⟨h1, hw⟩ := childWalk_pos hw hn
  have hsub : (p + SIZE - 1) % SIZE = p - 1 := by
    have : p + SIZE - 1 = (p - 1) + SIZE := by omega
    rw [this, Nat.add_mod_right]
    exact Nat.mod_eq_of_lt (by omega)
  have h := dispatch_loop_eq N nodes p hpS nd.Arity (p - 1) false ⟨m, []⟩ cs hn (by omega) hp hw
  simp only [dispatch_op, hnd, List.getElem?_eq_getElem hp, hsub, h, List.nil_append]

/-! ## The grouped value in exact arithmetic, row by row -/

theorem grouped_sub_acc {α : Type} [Field α] (r : Fin BATCHSIZE) :
    ∀ (ret : Column α) (xs : List (Column α)),
      grouped NodeType.Sub true ret xs r = ret r - (xs.map (· r)).sum
  | ret, [] => by simp [grouped]
  | ret, [x1] => by simp [grouped, kernel, op.accumulate]
  | ret, [x1, x2] => by simp [grouped, kernel, op.accumulate, foldPack]
  | ret, [x1, x2, x3] => by simp [grouped, kernel, op.accumulate, foldPack]
  | ret, [x1, x2, x3, x4] => by simp [grouped, kernel, op.accumulate, foldPack]
  | ret, x1 :: x2 :: x3 :: x4 :: x5 :: rest => by
    rw [grouped, grouped_sub_acc r _ rest]
    simp [kernel, op.accumulate, foldPack]
    ring

theorem grouped_sub_apply {α : Type} [Field α] (r : Fin BATCHSIZE) (ret x1 : Column α) :
    ∀ (xs : List (Column α)),
      grouped NodeType.Sub false ret (x1 :: xs) r =
        if xs.length = 0 then -(x1 r) else x1 r - (xs.map (· r)).sum
  | [] => by simp [grouped, kernel, op.apply]
  | [x2] => by simp [grouped, kernel, op.apply, foldPack]
  | [x2, x3] => by simp [grouped, kernel, op.apply, foldPack]
  | [x2, x3, x4] => by simp [grouped, kernel, op.apply, foldPack]
  | x2 :: x3 :: x4 :: x5 :: rest => by
    rw [grouped, grouped_sub_acc r _ rest]
    simp [kernel, op.apply, foldPack]
    ring

theorem grouped_add_acc {α : Type} [Field α] (r : Fin BATCHSIZE) :
    ∀ (ret : Column α) (xs : List (Column α)),
      grouped NodeType.Add true ret xs r = ret r + (xs.map (· r)).sum
  | ret, [] => by simp [grouped]
  | ret, [x1] => by simp [grouped, kernel, op.accumulate]
  | ret, [x1, x2] => by simp [grouped, kernel, op.accumulate, foldPack]
  | ret, [x1, x2, x3] => by simp [grouped, kernel, op.accumulate, foldPack]
  | ret, [x1, x2, x3, x4] => by simp [grouped, kernel, op.accumulate, foldPack]
  | ret, x1 :: x2 :: x3 :: x4 :: x5 :: rest => by
    rw [grouped, grouped_add_acc r _ rest]
    simp [kernel, op.accumulate, foldPack]
    ring

theorem grouped_add_apply {α : Type} [Field α] (r : Fin BATCHSIZE) (ret x1 : Column α) :
    ∀ (xs : List (Column α)),
      grouped NodeType.Add false ret (x1 :: xs) r = ((x1 :: xs).map (· r)).sum
  | [] => by simp [grouped, kernel, op.apply]
  | [x2] => by simp [grouped, kernel, op.apply, foldPack]
  | [x2, x3] => by simp [grouped, kernel, op.apply, foldPack]
  | [x2, x3, x4] => by simp [grouped, kernel, op.apply, foldPack]
  | x2 :: x3 :: x4 :: x5 :: rest => by
    rw [grouped, grouped_add_acc r _ rest]
    simp [kernel, op.apply, foldPack]
    ring

theorem grouped_mul_acc {α : Type} [Field α] (r : Fin BATCHSIZE) :
    ∀ (ret : Column α) (xs : List (Column α)),
      grouped NodeType.Mul true ret xs r = ret r * (xs.map (· r)).prod
  | ret, [] => by simp [grouped]
  | ret, [x1] => by simp [grouped, kernel, op.accumulate]
  | ret, [x1, x2] => by simp [grouped, kernel, op.accumulate, foldPack]
  | ret, [x1, x2, x3] => by simp [grouped, kernel, op.accumulate, foldPack]
  | ret, [x1, x2, x3, x4] => by simp [grouped, kernel, op.accumulate, foldPack]
  | ret, x1 :: x2 :: x3 :: x4 :: x5 :: rest => by
    rw [grouped, grouped_mul_acc r _ rest]
    simp [kernel, op.accumulate, foldPack]
    ring

theorem grouped_mul_apply {α : Type} [Field α] (r : Fin BATCHSIZE) (ret x1 : Column α) :
    ∀ (xs : List (Column α)),
      grouped NodeType.Mul false ret (x1 :: xs) r = ((x1 :: xs).map (· r)).prod
  | [] => by simp [grouped, kernel, op.apply]
  | [x2] => by simp [grouped, kernel, op.apply, foldPack]
  | [x2, x3] => by simp [grouped, kernel, op.apply, foldPack]
  | [x2, x3, x4] => by simp [grouped, kernel, op.apply, foldPack]
  | x2 :: x3 :: x4 :: x5 :: rest => by
    rw [grouped, grouped_mul_acc r _ rest]
    simp [kernel, op.apply, foldPack]
    ring

theorem grouped_div_acc {α : Type} [Field α] (r : Fin BATCHSIZE) :
    ∀ (ret : Column α) (xs : List (Column α)),
      grouped NodeType.Div true ret xs r = ret r / (xs.map (· r)).prod
  | ret, [] => by simp [grouped]
  | ret, [x1] => by simp [grouped, kernel, op.accumulate]
  | ret, [x1, x2] => by simp [grouped, kernel, op.accumulate, foldPack]
  | ret, [x1, x2, x3] => by simp [grouped, kernel, op.accumulate, foldPack]
  | ret, [x1, x2, x3, x4] => by simp [grouped, kernel, op.accumulate, foldPack]
  | ret, x1 :: x2 :: x3 :: x4 :: x5 :: rest => by
    rw [grouped, grouped_div_acc r _ rest]
    simp [kernel, op.accumulate, foldPack, div_div, mul_assoc]

theorem grouped_div_apply {α : Type} [Field α] (r : Fin BATCHSIZE) (ret x1 : Column α) :
    ∀ (xs : List (Column α)),
      grouped NodeType.Div false ret (x1 :: xs) r =
        if xs.length = 0 then 1 / x1 r else x1 r / (xs.map (· r)).prod
  | [] => by simp [grouped, kernel, op.apply]
  | [x2] => by simp [grouped, kernel, op.apply, foldPack]
  | [x2, x3] => by simp [grouped, kernel, op.apply, foldPack]
  | [x2, x3, x4] => by simp [grouped, kernel, op.apply, foldPack]
  | x2 :: x3 :: x4 :: x5 :: rest => by
    rw [grouped, grouped_div_acc r _ rest]
    simp [kernel, op.apply, foldPack, div_div, mul_assoc]

/-! ## The n-ary kernels through `dispatch_op` -/

/-- C1: for a Sub node at column `p` whose child walk `c1 :: cs` is well-formed,
`dispatch_op` returns and leaves in column `p`, row by row and in exact arithmetic,
`-M[c1]` when the arity is 1 and `M[c1] - (M[c2] + ... + M[cn])` otherwise, whatever
the arity (several groups, last group of one operand included). -/
theorem dispatch_op_sub {α : Type} [Field α] (m : Mat α) (nodes : List Node) (p : Nat)
    (nd : Node) (c1 : Nat) (cs : List Nat)
    (hnd : nodes[p]? = some nd) (hty : nd.Type_ = NodeType.Sub)
    (hp : p < m.length) (hpS : p < SIZE)
    (hw : childWalk nodes p nd.Arity = some (c1 :: cs)) :
    ∃ s', dispatch_op nd.Type_ m nodes p = some s' ∧ s'.m.length = m.length ∧
      ∀ r, col s'.m p r =
        if nd.Arity = 1 then -(col m c1 r)
        else col m c1 r - (cs.map (fun c => col m c r)).sum := by
  have hlen : (c1 :: cs).length = nd.Arity := childWalk_length hw
  have hn : 0 < nd.Arity := by rw [← hlen]; simp
  refine ⟨_, dispatch_op_eq nd.Type_ m nodes p nd (c1 :: cs) hnd hn hp hpS hw,
    List.length_set _ _ _, fun r => ?_⟩
  rw [col_set_self _ _ _ hp, hty, List.map_cons, grouped_sub_apply]
  have h1 : (nd.Arity = 1) ↔ (cs.map (col m)).length = 0 := by
    rw [← hlen]; simp
  simp only [h1, List.map_map]
  rfl

/-- C2: for a Div node at column `p` whose child walk `c1 :: cs` is well-formed,
`dispatch_op` returns and leaves in column `p`, row by row and in field arithmetic,
`1 / M[c1]` when the arity is 1 and `M[c1] / (M[c2] * ... * M[cn])` otherwise. -/
theorem dispatch_op_div {α : Type} [Field α] (m : Mat α) (nodes : List Node) (p : Nat)
    (nd : Node) (c1 : Nat) (cs : List Nat)
    (hnd : nodes[p]? = some nd) (hty : nd.Type_ = NodeType.Div)
    (hp : p < m.length) (hpS : p < SIZE)
    (hw : childWalk nodes p nd.Arity = some (c1 :: cs)) :
    ∃ s', dispatch_op nd.Type_ m nodes p = some s' ∧ s'.m.length = m.length ∧
      ∀ r, col s'.m p r =
        if nd.Arity = 1 then 1 / col m c1 r
        else col m c1 r / (cs.map (fun c => col m c r)).prod := by
  have hlen : (c1 :: cs).length = nd.Arity := childWalk_length hw
  have hn : 0 < nd.Arity := by rw [← hlen]; simp
  refine ⟨_, dispatch_op_eq nd.Type_ m nodes p nd (c1 :: cs) hnd hn hp hpS hw,
    List.length_set _ _ _, fun r => ?_⟩
  rw [col_set_self _ _ _ hp, hty, List.map_cons, grouped_div_apply]
  have h1 : (nd.Arity = 1) ↔ (cs.map (col m)).length = 0 := by
    rw [← hlen]; simp
  simp only [h1, List.map_map]
  rfl

/-- C3: for an Add (respectively Mul) node at column `p` whose child walk `cs` of
`n >= 1` children is well-formed, `dispatch_op` returns and leaves in column `p`,
row by row and in exact arithmetic, the sum (respectively the product) of all the
`n` child columns. -/
theorem dispatch_op_add_mul {α : Type} [Field α] (m : Mat α) (nodes : List Node) (p : Nat)
    (nd : Node) (cs : List Nat)
    (hnd : nodes[p]? = some nd) (hn : 1 ≤ nd.Arity)
    (hp : p < m.length) (hpS : p < SIZE)
    (hw : childWalk nodes p nd.Arity = some cs) :
    cs.length = nd.Arity ∧
    (nd.Type_ = NodeType.Add →
      ∃ s', dispatch_op nd.Type_ m nodes p = some s' ∧ s'.m.length = m.length ∧
        ∀ r, col s'.m p r = (cs.map (fun c => col m c r)).sum) ∧
    (nd.Type_ = NodeType.Mul →
      ∃ s', dispatch_op nd.Type_ m nodes p = some s' ∧ s'.m.length = m.length ∧
        ∀ r, col s'.m p r = (cs.map (fun c => col m c r)).prod) := by
  have hlen : cs.length = nd.Arity := childWalk_length hw
  obtain ⟨c1, cs', rfl⟩ : ∃ c1 cs', cs = c1 :: cs' := by
    cases cs with
    | nil => simp at hlen; omega
    | cons a l => exact ⟨a, l, rfl⟩
  refine ⟨hlen, fun hty => ?_, fun hty => ?_⟩
  · refine ⟨_, dispatch_op_eq nd.Type_ m nodes p nd _ hnd hn hp hpS hw,
      List.length_set _ _ _, fun r => ?_⟩
    rw [col_set_self _ _ _ hp, hty, List.map_cons, grouped_add_apply]
    simp only [List.map_cons, List.map_map]
    rfl
  · refine ⟨_, dispatch_op_eq nd.Type_ m nodes p nd _ hnd hn hp hpS hw,
      List.length_set _ _ _, fun r => ?_⟩
    rw [col_set_self _ _ _ hp, hty, List.map_cons, grouped_mul_apply]
    simp only [List.map_cons, List.map_map]
    rfl

theorem dispatch_op_sub_witness :
    childWalk (nodes6 NodeType.Sub) 6 6 = some [5, 4, 3, 2, 1, 0] ∧
    ∃ s', dispatch_op NodeType.Sub mat6 (nodes6 NodeType.Sub) 6 = some s' ∧ s'.m.length = 7 ∧
      ∀ r, col s'.m 6 r = 85 := by
  refine ⟨by decide, ?_⟩
  obtain ⟨s', h1, hl, h2⟩ := dispatch_op_sub mat6 (nodes6 NodeType.Sub) 6
    (naryNode NodeType.Sub 6 6) 5 [4, 3, 2, 1, 0] rfl rfl (by decide) (by decide) (by decide)
  refine ⟨s', h1, hl, fun r => ?_⟩
  rw [h2 r]
  norm_num [naryNode, col, mat6, constColumn]

theorem dispatch_op_div_witness :
    childWalk (nodes6 NodeType.Div) 6 6 = some [5, 4, 3, 2, 1, 0] ∧
    ∃ s', dispatch_op NodeType.Div mat6 (nodes6 NodeType.Div) 6 = some s' ∧ s'.m.length = 7 ∧
      ∀ r, col s'.m 6 r = 5 / 6 := by
  refine ⟨by decide, ?_⟩
  obtain ⟨s', h1, hl, h2⟩ := dispatch_op_div mat6 (nodes6 NodeType.Div) 6
    (naryNode NodeType.Div 6 6) 5 [4, 3, 2, 1, 0] rfl rfl (by decide) (by decide) (by decide)
  refine ⟨s', h1, hl, fun r => ?_⟩
  rw [h2 r]
  norm_num [naryNode, col, mat6, constColumn]

theorem dispatch_op_add_mul_witness :
    childWalk nodesS3 3 3 = some [2, 1, 0] ∧
    ∃ s', dispatch_op NodeType.Mul matS3 nodesS3 3 = some s' ∧ s'.m.length = 4 ∧
      ∀ r, col s'.m 3 r = 24 := by
  refine ⟨by decide, ?_⟩
  obtain ⟨s', h1, hl, h2⟩ := (dispatch_op_add_mul matS3 nodesS3 3 (naryNode NodeType.Mul 3 3)
    [2, 1, 0] rfl (by decide) (by decide) (by decide) (by decide)).2.2 rfl
  refine ⟨s', h1, hl, fun r => ?_⟩
  rw [h2 r]
  norm_num [col, matS3, constColumn]

/-- C4, as stated, fails: on `[Const=10; Const=2; Const=3; Sub/arity=3]` with
columns 0, 1, 2 holding 10, 2 and 3, `dispatch_op<Sub>` returns and the value it
leaves in column 3 is `-9` in every row, which is not 5. -/
theorem sub_scenario_not_five :
    ∃ s', dispatch_op NodeType.Sub matS4 nodesS4 3 = some s' ∧ s'.m.length = 4 ∧
      ∀ r, col s'.m 3 r = -9 ∧ col s'.m 3 r ≠ 5 := by
  refine ⟨_, dispatch_op_eq NodeType.Sub matS4 nodesS4 3 (naryNode NodeType.Sub 3 3) [2, 1, 0]
    rfl (by decide) (by decide) (by decide) (by decide), rfl, fun r => ?_⟩
  have h : col (matS4.set 3
      (grouped NodeType.Sub false (col matS4 3) ([2, 1, 0].map (col matS4)))) 3 r = -9 := by
    rw [col_set_self _ _ _ (by decide), List.map_cons, grouped_sub_apply]
    norm_num [col, matS4, constColumn]
  exact ⟨h, by rw [h]; norm_num⟩

/-- C4, amended: the operand next to the parent (column `p - 1`) is the minuend.
On `[Const=10; Const=2; Const=3; Sub/arity=3]` the kernel receives the columns
2, 1, 0 in this order and column 3 becomes `3 - (2 + 10) = -9`; the value
`5 = 10 - (2 + 3)` is what `[Const=3; Const=2; Const=10; Sub/arity=3]` yields. -/
theorem sub_scenario_value :
    (∃ s', dispatch_op NodeType.Sub matS4 nodesS4 3 = some s' ∧ s'.m.length = 4 ∧
      s'.calls = [⟨false, [2, 1, 0]⟩] ∧ ∀ r, col s'.m 3 r = 3 - (2 + 10)) ∧
    (∃ s', dispatch_op NodeType.Sub matS4r nodesS4r 3 = some s' ∧ s'.m.length = 4 ∧
      s'.calls = [⟨false, [2, 1, 0]⟩] ∧ ∀ r, col s'.m 3 r = 5) := by
  constructor
  · refine ⟨_, dispatch_op_eq NodeType.Sub matS4 nodesS4 3 (naryNode NodeType.Sub 3 3)
      [2, 1, 0] rfl (by decide) (by decide) (by decide) (by decide), rfl, rfl, fun r => ?_⟩
    show col (matS4.set 3
      (grouped NodeType.Sub false (col matS4 3) ([2, 1, 0].map (col matS4)))) 3 r = _
    rw [col_set_self _ _ _ (by decide), List.map_cons, grouped_sub_apply]
    norm_num [col, matS4, constColumn]
  · refine ⟨_, dispatch_op_eq NodeType.Sub matS4r nodesS4r 3 (naryNode NodeType.Sub 3 3)
      [2, 1, 0] rfl (by decide) (by decide) (by decide) (by decide), rfl, rfl, fun r => ?_⟩
    show col (matS4r.set 3
      (grouped NodeType.Sub false (col matS4r 3) ([2, 1, 0].map (col matS4r)))) 3 r = _
    rw [col_set_self _ _ _ (by decide), List.map_cons, grouped_sub_apply]
    norm_num [col, matS4r, constColumn]

/-! ## The kernel invocations of `dispatch_op` -/

theorem callsOf_length : ∀ (c : Bool) (cs : List Nat),
    (callsOf c cs).length = (cs.length + 4) / 5
  | _, [] => by simp [callsOf]
  | _, [_] => by simp [callsOf]
  | _, [_, _] => by simp [callsOf]
  | _, [_, _, _] => by simp [callsOf]
  | _, [_, _, _, _] => by simp [callsOf]
  | _, _ :: _ :: _ :: _ :: _ :: rest => by
    simp only [callsOf, List.length_cons, callsOf_length true rest]
    omega

theorem callsOf_join : ∀ (c : Bool) (cs : List Nat),
    ((callsOf c cs).map (·.args)).flatten = cs
  | _, [] => by simp [callsOf]
  | _, [_] => by simp [callsOf]
  | _, [_, _] => by simp [callsOf]
  | _, [_, _, _] => by simp [callsOf]
  | _, [_, _, _, _] => by simp [callsOf]
  | _, _ :: _ :: _ :: _ :: _ :: rest => by
    simp [callsOf, callsOf_join true rest]

theorem callsOf_getElem : ∀ (c : Bool) (cs : List Nat) (k : Nat) (call : KernelCall),
    (callsOf c cs)[k]? = some call →
      call.continued = (if k = 0 then c else true) ∧
      (k + 1 < (callsOf c cs).length → call.args.length = 5) ∧
      (k + 1 = (callsOf c cs).length → call.args.length = cs.length - 5 * k) ∧
      1 ≤ call.args.length ∧ call.args.length ≤ 5
  | _, [], k, call, h => by simp [callsOf] at h
  | _, [_], k, call, h => by
    cases k with
    | zero => simp [callsOf] at h; subst h; simp [callsOf]
    | succ k => simp [callsOf] at h
  | _, [_, _], k, call, h => by
    cases k with
    | zero => simp [callsOf] at h; subst h; simp [callsOf]
    | succ k => simp [callsOf] at h
  | _, [_, _, _], k, call, h => by
    cases k with
    | zero => simp [callsOf] at h; subst h; simp [callsOf]
    | succ k => simp [callsOf] at h
  | _, [_, _, _, _], k, call, h => by
    cases k with
    | zero => simp [callsOf] at h; subst h; simp [callsOf]
    | succ k => simp [callsOf] at h
  | c, a1 :: a2 :: a3 :: a4 :: a5 :: rest, k, call, h => by
    have hlen := callsOf_length true rest
    cases k with
    | zero =>
      simp [callsOf] at h
      subst h
      simp only [callsOf, List.length_cons, hlen]
      refine ⟨by simp, fun _ => rfl, fun h1 => ?_, by simp, by simp⟩
      have h0 : rest.length = 0 := by omega
      simp [h0]
    | succ k =>
      simp only [callsOf, List.getElem?_cons_succ] at h
      obtain ⟨h1, h2, h3, h4⟩ := callsOf_getElem true rest k call h
      simp only [callsOf, List.length_cons, hlen] at *
      refine ⟨by simp [h1], fun hk => h2 (by omega), fun hk => ?_, h4⟩
      rw [h3 (by omega)]
      omega

/-- C5: for a node of arity `n >= 1` with a well-formed child walk `cs`,
`dispatch_op` returns after exactly `ceil(n/5)` kernel invocations; the first is
`apply` and every later one `accumulate`; every invocation but the last takes 5
operand columns and the last takes `n - 5 * (ceil(n/5) - 1)` of them (between 1
and 5); the operands of the successive invocations, concatenated, are the walk. -/
theorem dispatch_op_calls {α : Type} [Field α] (N : NodeType) (m : Mat α) (nodes : List Node)
    (p : Nat) (nd : Node) (cs : List Nat)
    (hnd : nodes[p]? = some nd) (hn : 1 ≤ nd.Arity) (hp : p < m.length) (hpS : p < SIZE)
    (hw : childWalk nodes p nd.Arity = some cs) :
    ∃ s', dispatch_op N m nodes p = some s' ∧
      s'.calls.length = (nd.Arity + 4) / 5 ∧
      (∀ k call, s'.calls[k]? = some call →
        call.continued = decide (0 < k) ∧
        (k + 1 < s'.calls.length → call.args.length = 5) ∧
        (k + 1 = s'.calls.length →
          call.args.length = nd.Arity - 5 * ((nd.Arity + 4) / 5 - 1) ∧
          1 ≤ call.args.length ∧ call.args.length ≤ 5)) ∧
      (s'.calls.map (·.args)).flatten = cs := by
  have hlen : cs.length = nd.Arity := childWalk_length hw
  refine ⟨_, dispatch_op_eq N m nodes p nd cs hnd hn hp hpS hw, ?_, ?_, ?_⟩
  · simp only [callsOf_length, hlen]
  · intro k call hk
    obtain ⟨h1, h2, h3, h4, h5⟩ := callsOf_getElem false cs k call hk
    have hl := callsOf_length false cs
    simp only at hk h2 h3 ⊢
    refine ⟨?_, h2, fun hlast => ⟨?_, h4, h5⟩⟩
    · rw [h1]
      cases k <;> simp
    · rw [h3 hlast, hlen]
      rw [hl, hlen] at hlast
      have : k = (nd.Arity + 4) / 5 - 1 := by omega
      rw [this]
  · exact callsOf_join false cs

theorem dispatch_op_calls_witness :
    childWalk (nodes6 NodeType.Sub) 6 6 = some [5, 4, 3, 2, 1, 0] ∧
    ∃ s', dispatch_op NodeType.Sub mat6 (nodes6 NodeType.Sub) 6 = some s' ∧
      s'.calls.length = 2 ∧
      (∀ k call, s'.calls[k]? = some call →
        call.continued = decide (0 < k) ∧
        (k + 1 < s'.calls.length → call.args.length = 5) ∧
        (k + 1 = s'.calls.length →
          call.args.length = 1 ∧ 1 ≤ call.args.length ∧ call.args.length ≤ 5)) ∧
      (s'.calls.map (·.args)).flatten = [5, 4, 3, 2, 1, 0] :=
  ⟨by decide, dispatch_op_calls NodeType.Sub mat6 (nodes6 NodeType.Sub) 6
    (naryNode NodeType.Sub 6 6) [5, 4, 3, 2, 1, 0] rfl (by decide) (by decide) (by decide)
    (by decide)⟩

/-! ## Node construction and comparison -/

/-- C8: `Node(kind)` has Arity 2 when the kind is binary (Add, Mul, Sub, Div),
Arity 1 when it is unary (Log, Exp, Sin, Cos, Tan, Sqrt, Cbrt) and Arity 0 when
it is a leaf (Constant, Variable); every kind is of exactly one of the three sorts. -/
theorem node_default_arity (kind : NodeType) :
    (Node.ofType kind).Arity =
        (if kind.isBinary then 2 else if kind.isUnary then 1 else 0) ∧
      (kind.isLeafKind = (!kind.isBinary && !kind.isUnary)) ∧
      (kind.isBinary = true ↔ kind ∈ [NodeType.Add, NodeType.Mul, NodeType.Sub, NodeType.Div]) ∧
      (kind.isUnary = true ↔ kind ∈ [NodeType.Log, NodeType.Exp, NodeType.Sin, NodeType.Cos,
        NodeType.Tan, NodeType.Sqrt, NodeType.Cbrt]) ∧
      (kind.isLeafKind = true ↔ kind ∈ [NodeType.Constant, NodeType.Variable]) := by
  cases kind <;> decide

/-- C9: `a < b` holds exactly when `(a.HashValue, a.CalculatedHashValue)` is
lexicographically smaller than `(b.HashValue, b.CalculatedHashValue)`, and `a == b`
holds exactly when the two `CalculatedHashValue` are equal. -/
theorem node_lt_eq (a b : Node) :
    (Node.lt a b = true ↔
      Prod.Lex (· < ·) (· < ·) (a.HashValue, a.CalculatedHashValue)
        (b.HashValue, b.CalculatedHashValue)) ∧
    (Node.eq a b = true ↔ a.CalculatedHashValue = b.CalculatedHashValue) := by
  constructor
  · rw [Prod.lex_def]
    unfold Node.lt
    by_cases h : a.HashValue = b.HashValue
    · simp [h]
    · simp only [h, if_false, decide_eq_true_eq, false_and, or_false]
  · simp [Node.eq]

/-! ## The NMSE facade -/

/-- C10: with `v` the NMSE value computed for the (possibly optimised) genotype,
the NMSE facade returns `UpperBound` (the sentinel MAX scalar) if `v` is not finite
or `v < 0`, and `v` itself otherwise; as the sentinel is not below `LowerBound = 0`,
every returned fitness is `>= 0`. -/
theorem nmse_facade_guard {G : Type} (UpperBound : Scalar) (optimize : G → Nat → G × Nat)
    (nmseOf : G → Scalar) (self : EvaluatorBase) (genotype : G)
    (hU : UpperBound.ge NormalizedMeanSquaredErrorEvaluator.LowerBound = true) :
    let out := NormalizedMeanSquaredErrorEvaluator.call UpperBound optimize nmseOf self genotype
    let v := nmseOf out.2.1
    out.1 = (if v.isfinite = false ∨ v.lt (Scalar.finite 0) = true then UpperBound else v) ∧
      out.1.ge (Scalar.finite 0) = true := by
  intro out v
  have hout : out.1 =
      (if v.isfinite = false ∨ v.lt (Scalar.finite 0) = true then UpperBound else v) := by
    show (if (!v.isfinite || v.lt NormalizedMeanSquaredErrorEvaluator.LowerBound) = true
      then UpperBound else v) = _
    cases hf : v.isfinite <;>
      cases hl : v.lt NormalizedMeanSquaredErrorEvaluator.LowerBound <;>
      simp [NormalizedMeanSquaredErrorEvaluator.LowerBound] at hl ⊢ <;> simp [hl]
  refine ⟨hout, ?_⟩
  rw [hout]
  cases hv : v with
  | finite q =>
    by_cases hq : q < 0
    · simpa [Scalar.isfinite, Scalar.lt, hq] using hU
    · simp [Scalar.isfinite, Scalar.lt, hq, Scalar.ge, not_lt.mp hq]
  | posInf => simpa [Scalar.isfinite] using hU
  | negInf => simpa [Scalar.isfinite] using hU
  | nan => simpa [Scalar.isfinite] using hU

theorem nmse_facade_guard_witness :
    Scalar.posInf.ge NormalizedMeanSquaredErrorEvaluator.LowerBound = true ∧
    (NormalizedMeanSquaredErrorEvaluator.call Scalar.posInf (fun (g : Unit) _ => (g, 0))
      (fun _ => Scalar.finite (-1)) ⟨0, 0, 0⟩ ()).1 = Scalar.posInf ∧
    (NormalizedMeanSquaredErrorEvaluator.call Scalar.posInf (fun (g : Unit) _ => (g, 0))
      (fun _ => Scalar.finite (-1)) ⟨0, 0, 0⟩ ()).1.ge (Scalar.finite 0) = true := by
  have h := nmse_facade_guard Scalar.posInf (fun (g : Unit) _ => (g, 0))
    (fun _ => Scalar.finite (-1)) ⟨0, 0, 0⟩ () rfl
  refine ⟨rfl, ?_, h.2⟩
  rw [h.1]
  simp [Scalar.isfinite, Scalar.lt]

/-! ## The child walk on a postfix tree -/

theorem Forest.nodes_length (F : Forest) : F.nodes.length = F.size := by
  induction F with
  | nil => rfl
  | snoc f ch r ihf ihch => simp [Forest.nodes, Forest.size, ihf, ihch]

theorem Forest.count_le_size (F : Forest) : F.count ≤ F.size := by
  induction F with
  | nil => exact le_rfl
  | snoc f ch r ihf _ => simp only [Forest.count, Forest.size]; omega

theorem Forest.roots_length (off : Nat) (F : Forest) : (F.roots off).length = F.count := by
  induction F with
  | nil => rfl
  | snoc f ch r ihf _ => simp [Forest.roots, Forest.count, ihf]

theorem Forest.roots_lt (off : Nat) (F : Forest) : ∀ c ∈ F.roots off, c < off + F.size := by
  induction F with
  | nil => simp [Forest.roots]
  | snoc f ch r ihf _ =>
    intro c hc
    simp only [Forest.roots, List.mem_cons] at hc
    simp only [Forest.size]
    rcases hc with rfl | hc
    · omega
    · have := ihf c hc
      omega

theorem getElem?_root (A X Y B : List Node) (r : Node) (i : Nat)
    (hi : i = A.length + X.length + Y.length) :
    (A ++ (X ++ (Y ++ [r])) ++ B)[i]? = some r := by
  have h : A ++ (X ++ (Y ++ [r])) ++ B = (A ++ X ++ Y) ++ r :: B := by simp
  have hl : (A ++ X ++ Y).length = A.length + X.length + Y.length := by
    simp only [List.length_append]
  rw [h, hi, ← hl, List.getElem?_append_right (le_refl _)]
  simp

/-- The walk over the roots of a valid forest laid out inside a node array. -/
theorem Forest.walk_roots (F : Forest) : ∀ (A B : List Node), F.Valid → 0 < F.count →
    walkFrom (A ++ F.nodes ++ B) F.count (A.length + F.size - 1) = some (F.roots A.length) := by
  induction F with
  | nil => intro A B _ h; simp [Forest.count] at h
  | snoc f ch r ihf _ =>
    intro A B hv _
    obtain ⟨hvf, _, _, hlen⟩ := hv
    have hnode : (A ++ (f.nodes ++ (ch.nodes ++ [r])) ++ B)[A.length + f.size + ch.size]? =
        some r := getElem?_root A f.nodes ch.nodes B r _ (by simp [Forest.nodes_length])
    have hidx : A.length + (f.size + (ch.size + 1)) - 1 = A.length + f.size + ch.size := by omega
    simp only [Forest.nodes, Forest.count, Forest.size, Forest.roots, hidx]
    unfold walkFrom
    simp only [hnode]
    by_cases hc : f.count = 0
    · have hr : f.roots A.length = [] := by
        apply List.eq_nil_of_length_eq_zero
        rw [Forest.roots_length, hc]
      simp [hc, hr]
    · have hsz := f.count_le_size
      have hle : r.Length + 1 ≤ A.length + f.size + ch.size := by omega
      have hsub : A.length + f.size + ch.size - (r.Length + 1) = A.length + f.size - 1 := by
        omega
      have hnodes : A ++ (f.nodes ++ (ch.nodes ++ [r])) ++ B =
          A ++ f.nodes ++ (ch.nodes ++ [r] ++ B) := by simp
      have ih := ihf A (ch.nodes ++ [r] ++ B) hvf (Nat.pos_of_ne_zero hc)
      simp only [hc, if_false, hle, if_true, hsub, hnodes, ih, Option.map_some']

theorem childWalk_of_pos (nodes : List Node) (p n : Nat) (hn : 0 < n) (hp : 1 ≤ p) :
    childWalk nodes p n = walkFrom nodes n (p - 1) := by
  cases n with
  | zero => omega
  | succ n => simp [childWalk, hp]

theorem lengthAt_of_getElem {nodes : List Node} {c : Nat} {nd : Node}
    (h : nodes[c]? = some nd) : lengthAt nodes c = nd.Length := by
  simp [lengthAt, h]

/-- The `Length` fields of the roots of a valid forest add up, with one more per
root, to the number of its nodes. -/
theorem Forest.roots_sum (F : Forest) : ∀ (A B : List Node), F.Valid →
    ((F.roots A.length).map (fun c => lengthAt (A ++ F.nodes ++ B) c + 1)).sum = F.size := by
  induction F with
  | nil => intro A B _; rfl
  | snoc f ch r ihf _ =>
    intro A B hv
    obtain ⟨hvf, _, _, hlen⟩ := hv
    have hnode : (A ++ (f.nodes ++ (ch.nodes ++ [r])) ++ B)[A.length + f.size + ch.size]? =
        some r := getElem?_root A f.nodes ch.nodes B r _ (by simp [Forest.nodes_length])
    have hnodes : A ++ (f.nodes ++ (ch.nodes ++ [r])) ++ B =
        A ++ f.nodes ++ (ch.nodes ++ [r] ++ B) := by simp
    have ih := ihf A (ch.nodes ++ [r] ++ B) hvf
    simp only [Forest.nodes, Forest.roots, Forest.size, List.map_cons, List.sum_cons,
      lengthAt_of_getElem hnode, hlen]
    rw [hnodes, ih]
    omega

/-- Every node of a valid forest laid out inside a node array: the node array has
the node at its position, the child walk from it yields the roots of its child
subtrees, and their `Length` fields, plus one each, add up to its own. -/
theorem Forest.entries_spec (F : Forest) : ∀ (A B : List Node), F.Valid →
    ∀ e ∈ F.entries A.length,
      (A ++ F.nodes ++ B)[e.1]? = some e.2.1 ∧
      childWalk (A ++ F.nodes ++ B) e.1 e.2.1.Arity = some e.2.2 ∧
      (e.2.2.map (fun c => lengthAt (A ++ F.nodes ++ B) c + 1)).sum = e.2.1.Length := by
  induction F with
  | nil => intro A B _ e he; simp [Forest.entries] at he
  | snoc f ch r ihf ihch =>
    intro A B hv e he
    obtain ⟨hvf, hvch, har, hlen⟩ := hv
    have hA : (A ++ f.nodes).length = A.length + f.size := by
      simp [Forest.nodes_length]
    have hn1 : A ++ (f.nodes ++ (ch.nodes ++ [r])) ++ B =
        A ++ f.nodes ++ (ch.nodes ++ [r] ++ B) := by simp
    have hn2 : A ++ (f.nodes ++ (ch.nodes ++ [r])) ++ B =
        (A ++ f.nodes) ++ ch.nodes ++ ([r] ++ B) := by simp
    simp only [Forest.entries, List.mem_append, List.mem_singleton] at he
    simp only [Forest.nodes]
    rcases he with he | he | rfl
    · rw [hn1]
      exact ihf A (ch.nodes ++ [r] ++ B) hvf e he
    · rw [hn2]
      rw [← hA] at he
      exact ihch (A ++ f.nodes) ([r] ++ B) hvch e he
    · have hnode : (A ++ (f.nodes ++ (ch.nodes ++ [r])) ++ B)[A.length + f.size + ch.size]? =
          some r := getElem?_root A f.nodes ch.nodes B r _ (by simp [Forest.nodes_length])
      refine ⟨hnode, ?_, ?_⟩
      · show childWalk _ (A.length + f.size + ch.size) r.Arity =
          some (ch.roots (A.length + f.size))
        rw [har]
        by_cases hc : ch.count = 0
        · have hr : ch.roots (A.length + f.size) = [] := by
            apply List.eq_nil_of_length_eq_zero
            rw [Forest.roots_length, hc]
          rw [hc, hr]
          rfl
        · have hsz := ch.count_le_size
          rw [childWalk_of_pos _ _ _ (Nat.pos_of_ne_zero hc) (by omega), hn2]
          have hw := Forest.walk_roots ch (A ++ f.nodes) ([r] ++ B) hvch (Nat.pos_of_ne_zero hc)
          rw [hA] at hw
          exact hw
      · show ((ch.roots (A.length + f.size)).map _).sum = r.Length
        have hs := Forest.roots_sum ch (A ++ f.nodes) ([r] ++ B) hvch
        rw [hA] at hs
        rw [hn2, hs, hlen]

/-- Every position of a forest is the position of one of its entries. -/
theorem Forest.entries_cover (F : Forest) : ∀ (off p : Nat), off ≤ p → p < off + F.size →
    ∃ e ∈ F.entries off, e.1 = p := by
  induction F with
  | nil => intro off p h1 h2; simp [Forest.size] at h2; omega
  | snoc f ch r ihf ihch =>
    intro off p h1 h2
    simp only [Forest.size] at h2
    simp only [Forest.entries, List.mem_append, List.mem_singleton]
    by_cases hf : p < off + f.size
    · obtain ⟨e, he, hp⟩ := ihf off p h1 hf
      exact ⟨e, Or.inl he, hp⟩
    · by_cases hch : p < off + f.size + ch.size
      · obtain ⟨e, he, hp⟩ := ihch (off + f.size) p (by omega) (by omega)
        exact ⟨e, Or.inr (Or.inl he), hp⟩
      · exact ⟨_, Or.inr (Or.inr rfl), by simp only; omega⟩

theorem sum_map_succ (f : Nat → Nat) (cs : List Nat) :
    (cs.map (fun c => f c + 1)).sum = (cs.map f).sum + cs.length := by
  induction cs with
  | nil => rfl
  | cons a l ih => simp only [List.map_cons, List.sum_cons, List.length_cons, ih]; omega

theorem walkFrom_head {nodes : List Node} {k i : Nat} {cs : List Nat}
    (h : walkFrom nodes (k + 1) i = some cs) : cs.head? = some i := by
  obtain ⟨nd, _, hc⟩ := walkFrom_succ h
  rcases hc with ⟨_, rfl⟩ | ⟨_, _, cs', rfl, _⟩ <;> rfl

theorem walkFrom_chain {nodes : List Node} : ∀ (n i : Nat) (cs : List Nat),
    walkFrom nodes n i = some cs →
      List.Chain' (fun c c' => c' + lengthAt nodes c + 1 = c) cs
  | 0, i, cs, h => by
    simp [walkFrom] at h
    subst h
    exact List.chain'_nil
  | n + 1, i, cs, h => by
    obtain ⟨nd, hnd, hc⟩ := walkFrom_succ h
    rcases hc with ⟨_, rfl⟩ | ⟨hn, hl, cs', rfl, hw⟩
    · exact List.chain'_singleton i
    · obtain ⟨k, rfl⟩ : ∃ k, n = k + 1 := ⟨n - 1, by omega⟩
      have hh := walkFrom_head hw
      have ih := walkFrom_chain (k + 1) _ cs' hw
      cases cs' with
      | nil => simp at hh
      | cons c' cs'' =>
        simp only [List.head?_cons, Option.some.injEq] at hh
        refine List.chain'_cons.mpr ⟨?_, ih⟩
        rw [lengthAt_of_getElem hnd, hh]
        omega

theorem treeAdd_valid : treeAdd.Valid := by
  decide

/-- C6, as stated, fails: in the valid tree `[Constant; Constant; Add]`, whose nodes
are as their constructor makes them, the walk from the root has 2 elements (the two
leaves) but their `Length` fields add up to 0, not to `Length(root) - 1 = 1`; and
with `Length` counting the node itself (1, 1, 3) the walk leaves the array. -/
theorem child_walk_length_sum_fails :
    treeAdd.Valid ∧
    treeAdd.nodes = [Node.ofType NodeType.Constant, Node.ofType NodeType.Constant,
      Node.ofType NodeType.Add] ∧
    (Node.ofType NodeType.Add).Arity = 2 ∧
    childWalk treeAdd.nodes 2 2 = some [1, 0] ∧
    ([1, 0].map (lengthAt treeAdd.nodes)).sum = 0 ∧
    lengthAt treeAdd.nodes 2 - 1 = 1 ∧
    ([1, 0].map (lengthAt treeAdd.nodes)).sum ≠ lengthAt treeAdd.nodes 2 - 1 ∧
    childWalk nodesInclusive 2 2 = none :=
  ⟨treeAdd_valid, rfl, rfl, by decide, by decide, by decide, by decide, by decide⟩

/-- C6, amended: for every node `p` of a valid postfix tree, the walk that starts at
`p - 1` and steps `i <- i - Length(i) - 1`, taken `arity(p)` times, has exactly
`arity(p)` elements, these are the roots of the child subtrees of `p`, and the sum
of their `Length` fields equals `Length(p) - arity(p)`. -/
theorem child_walk_valid (T : Forest) (hv : T.Valid) (p : Nat) (hp : p < T.nodes.length) :
    ∃ nd cs, (p, nd, cs) ∈ T.entries 0 ∧ T.nodes[p]? = some nd ∧
      childWalk T.nodes p nd.Arity = some cs ∧ cs.length = nd.Arity ∧
      (cs.map (lengthAt T.nodes)).sum = nd.Length - nd.Arity ∧ nd.Arity ≤ nd.Length := by
  rw [Forest.nodes_length] at hp
  obtain ⟨⟨q, nd, cs⟩, he, rfl⟩ := T.entries_cover 0 p (Nat.zero_le _) (by omega)
  have h := T.entries_spec [] [] hv _ he
  simp only [List.nil_append, List.append_nil] at h
  obtain ⟨h1, h2, h3⟩ := h
  have hlen := childWalk_length h2
  rw [sum_map_succ, hlen] at h3
  exact ⟨nd, cs, he, h1, h2, hlen, by omega, by omega⟩

theorem child_walk_valid_witness :
    treeAdd.Valid ∧ 2 < treeAdd.nodes.length ∧
    ∃ nd cs, (2, nd, cs) ∈ treeAdd.entries 0 ∧ treeAdd.nodes[2]? = some nd ∧
      childWalk treeAdd.nodes 2 nd.Arity = some cs ∧ cs.length = nd.Arity ∧
      (cs.map (lengthAt treeAdd.nodes)).sum = nd.Length - nd.Arity ∧ nd.Arity ≤ nd.Length :=
  ⟨treeAdd_valid, by decide, child_walk_valid treeAdd treeAdd_valid 2 (by decide)⟩

/-- C7, as stated, fails: a node freshly constructed from a leaf kind has `Length`
0, not 1, and the freshly constructed root of `[Constant; Constant; Add]` has
`Length` 2, not `1 + (0 + 0)`. -/
theorem fresh_leaf_length_zero :
    (Node.ofType NodeType.Constant).Length = 0 ∧
    (Node.ofType NodeType.Variable).Length = 0 ∧
    (Node.ofType NodeType.Constant).Length ≠ 1 ∧
    (Node.ofType NodeType.Variable).Length ≠ 1 ∧
    lengthAt treeAdd.nodes 2 = 2 ∧
    lengthAt treeAdd.nodes 2 ≠ 1 + ([1, 0].map (lengthAt treeAdd.nodes)).sum := by
  decide

/-- C7, amended: the `Length` field of a node is the number of nodes of its subtree
without the node itself, i.e. `Length(p)` is the sum of `Length(child) + 1` over the
children of `p`; a freshly constructed node has `Length = Arity`, so a leaf has
`Length` 0; and this is the `Length` the child walk relies on: the first child root
is `p - 1` and from a child root `c` the next one is `c - Length(c) - 1`. -/
theorem node_length_convention (T : Forest) (hv : T.Valid) (p : Nat)
    (hp : p < T.nodes.length) :
    (∀ kind, (Node.ofType kind).Length = (Node.ofType kind).Arity ∧
      (kind.isLeafKind = true → (Node.ofType kind).Length = 0)) ∧
    ∃ nd cs, (p, nd, cs) ∈ T.entries 0 ∧ T.nodes[p]? = some nd ∧
      nd.Length = (cs.map (fun c => lengthAt T.nodes c + 1)).sum ∧
      cs.head? = (if nd.Arity = 0 then none else some (p - 1)) ∧
      List.Chain' (fun c c' => c' + lengthAt T.nodes c + 1 = c) cs := by
  refine ⟨fun kind => by cases kind <;> decide, ?_⟩
  rw [Forest.nodes_length] at hp
  obtain ⟨⟨q, nd, cs⟩, he, rfl⟩ := T.entries_cover 0 p (Nat.zero_le _) (by omega)
  have h := T.entries_spec [] [] hv _ he
  simp only [List.nil_append, List.append_nil] at h
  obtain ⟨h1, h2, h3⟩ := h
  refine ⟨nd, cs, he, h1, h3.symm, ?_, ?_⟩
  · by_cases h0 : nd.Arity = 0
    · have hl := childWalk_length h2
      rw [h0] at hl
      simp [h0, List.eq_nil_of_length_eq_zero hl]
    · obtain ⟨k, hk⟩ : ∃ k, nd.Arity = k + 1 := ⟨nd.Arity - 1, by omega⟩
      have hw := (childWalk_pos h2 (by omega)).2
      rw [hk] at hw
      simp only [h0, if_false]
      exact walkFrom_head hw
  · by_cases h0 : nd.Arity = 0
    · have hl := childWalk_length h2
      rw [h0] at hl
      rw [List.eq_nil_of_length_eq_zero hl]
      exact List.chain'_nil
    · exact walkFrom_chain _ _ _ (childWalk_pos h2 (by omega)).2

theorem node_length_convention_witness :
    treeAdd.Valid ∧ 2 < treeAdd.nodes.length ∧
    ((∀ kind, (Node.ofType kind).Length = (Node.ofType kind).Arity ∧
      (kind.isLeafKind = true → (Node.ofType kind).Length = 0)) ∧
    ∃ nd cs, (2, nd, cs) ∈ treeAdd.entries 0 ∧ treeAdd.nodes[2]? = some nd ∧
      nd.Length = (cs.map (fun c => lengthAt treeAdd.nodes c + 1)).sum ∧
      cs.head? = (if nd.Arity = 0 then none else some (2 - 1)) ∧
      List.Chain' (fun c c' => c' + lengthAt treeAdd.nodes c + 1 = c) cs) :=
  ⟨treeAdd_valid, by decide, node_length_convention treeAdd treeAdd_valid 2 (by decide)⟩

/-! ## The R² facade and the counters of the facades -/

theorem rsquared_clamp (r2 : Scalar) :
    ((RSquaredEvaluator.UpperBound.sub
        (if (!r2.isfinite || r2.gt RSquaredEvaluator.UpperBound ||
            r2.lt RSquaredEvaluator.LowerBound) = true
          then Scalar.finite 0 else r2)).add RSquaredEvaluator.LowerBound) =
      (if r2.isfinite = true ∧ r2.ge (Scalar.finite 0) = true ∧
          (Scalar.finite 1).ge r2 = true
        then (Scalar.finite 1).sub r2 else Scalar.finite 1) := by
  cases r2 with
  | finite q =>
    by_cases h0 : q < 0
    · have h0' : ¬ (0 ≤ q) := not_le.mpr h0
      simp [Scalar.isfinite, Scalar.gt, Scalar.lt, Scalar.ge, Scalar.sub, Scalar.add,
        RSquaredEvaluator.UpperBound, RSquaredEvaluator.LowerBound, h0, h0']
    · by_cases h1 : 1 < q
      · have h1' : ¬ (q ≤ 1) := not_le.mpr h1
        simp [Scalar.isfinite, Scalar.gt, Scalar.lt, Scalar.ge, Scalar.sub, Scalar.add,
          RSquaredEvaluator.UpperBound, RSquaredEvaluator.LowerBound, h1, h1']
      · simp [Scalar.isfinite, Scalar.gt, Scalar.lt, Scalar.ge, Scalar.sub, Scalar.add,
          RSquaredEvaluator.UpperBound, RSquaredEvaluator.LowerBound, h0, h1,
          not_lt.mp h0, not_lt.mp h1]
  | posInf => simp [Scalar.isfinite, Scalar.sub, Scalar.add,
      RSquaredEvaluator.UpperBound, RSquaredEvaluator.LowerBound]
  | negInf => simp [Scalar.isfinite, Scalar.sub, Scalar.add,
      RSquaredEvaluator.UpperBound, RSquaredEvaluator.LowerBound]
  | nan => simp [Scalar.isfinite, Scalar.sub, Scalar.add,
      RSquaredEvaluator.UpperBound, RSquaredEvaluator.LowerBound]

theorem rsquared_clamp_range (r2 : Scalar) :
    ∃ q : ℚ, (if r2.isfinite = true ∧ r2.ge (Scalar.finite 0) = true ∧
          (Scalar.finite 1).ge r2 = true
        then (Scalar.finite 1).sub r2 else Scalar.finite 1) = Scalar.finite q ∧
      0 ≤ q ∧ q ≤ 1 := by
  cases r2 with
  | finite q =>
    by_cases hc : 0 ≤ q ∧ q ≤ 1
    · exact ⟨1 - q, by simp [Scalar.isfinite, Scalar.ge, Scalar.sub, hc.1, hc.2],
        by linarith [hc.2], by linarith [hc.1]⟩
    · refine ⟨1, ?_, by norm_num, le_refl _⟩
      simp only [Scalar.isfinite, Scalar.ge, decide_eq_true_eq, true_and, hc, if_false]
  | posInf => exact ⟨1, by simp [Scalar.isfinite], by norm_num, le_refl _⟩
  | negInf => exact ⟨1, by simp [Scalar.isfinite], by norm_num, le_refl _⟩
  | nan => exact ⟨1, by simp [Scalar.isfinite], by norm_num, le_refl _⟩

/-- The R² facade in closed form: the fitness, the genotype and the counters. -/
theorem rsquared_call_eq {G : Type} (optimize : G → Nat → G × Nat)
    (pearson : G → Scalar × Scalar) (self : EvaluatorBase) (genotype : G) :
    RSquaredEvaluator.call optimize pearson self genotype =
      ((if (pearson (if 0 < self.iterations then (optimize genotype self.iterations).1
              else genotype)).1.lt RSquaredEvaluator.tolerance = true
          then Scalar.finite 1
          else if ((pearson (if 0 < self.iterations then (optimize genotype self.iterations).1
                else genotype)).2.mul
              (pearson (if 0 < self.iterations then (optimize genotype self.iterations).1
                else genotype)).2).isfinite = true ∧
            ((pearson (if 0 < self.iterations then (optimize genotype self.iterations).1
                else genotype)).2.mul
              (pearson (if 0 < self.iterations then (optimize genotype self.iterations).1
                else genotype)).2).ge (Scalar.finite 0) = true ∧
            (Scalar.finite 1).ge
              ((pearson (if 0 < self.iterations then (optimize genotype self.iterations).1
                else genotype)).2.mul
              (pearson (if 0 < self.iterations then (optimize genotype self.iterations).1
                else genotype)).2) = true
          then (Scalar.finite 1).sub
              ((pearson (if 0 < self.iterations then (optimize genotype self.iterations).1
                else genotype)).2.mul
              (pearson (if 0 < self.iterations then (optimize genotype self.iterations).1
                else genotype)).2)
          else Scalar.finite 1),
        (if 0 < self.iterations then (optimize genotype self.iterations).1 else genotype),
        { fitnessEvaluations := self.fitnessEvaluations + 1
          localEvaluations := self.localEvaluations +
            (if 0 < self.iterations then (optimize genotype self.iterations).2 else 0)
          iterations := self.iterations }) := by
  unfold RSquaredEvaluator.call
  by_cases hit : 0 < self.iterations
  · simp only [gt_iff_lt, hit, if_true]
    split
    · rfl
    · rw [rsquared_clamp]
  · simp only [gt_iff_lt, hit, if_false, Nat.add_zero]
    split
    · rfl
    · rw [rsquared_clamp]

/-- The NMSE facade in closed form: the fitness, the genotype and the counters. -/
theorem nmse_call_eq {G : Type} (UpperBound : Scalar) (optimize : G → Nat → G × Nat)
    (nmseOf : G → Scalar) (self : EvaluatorBase) (genotype : G) :
    NormalizedMeanSquaredErrorEvaluator.call UpperBound optimize nmseOf self genotype =
      ((if (!(nmseOf (if 0 < self.iterations then (optimize genotype self.iterations).1
                else genotype)).isfinite ||
              (nmseOf (if 0 < self.iterations then (optimize genotype self.iterations).1
                else genotype)).lt NormalizedMeanSquaredErrorEvaluator.LowerBound) = true
          then UpperBound
          else nmseOf (if 0 < self.iterations then (optimize genotype self.iterations).1
                else genotype)),
        (if 0 < self.iterations then (optimize genotype self.iterations).1 else genotype),
        { fitnessEvaluations := self.fitnessEvaluations + 1
          localEvaluations := self.localEvaluations +
            (if 0 < self.iterations then (optimize genotype self.iterations).2 else 0)
          iterations := self.iterations }) := by
  unfold NormalizedMeanSquaredErrorEvaluator.call
  by_cases hit : 0 < self.iterations
  · simp only [gt_iff_lt, hit, if_true]
  · simp only [gt_iff_lt, hit, if_false, Nat.add_zero]

/-- C11: with `varX` and `r` the variance of the predictions and the correlation
delivered by the Pearson calculator, the R² facade returns 1 if `varX < 1e-12`;
otherwise it returns `1 - r*r` when `r*r` is finite and in `[0, 1]`, and 1 when
`r*r` is not finite or outside `[0, 1]`.  Every returned fitness is a finite value
in `[0, 1]`, whatever `varX` and `r` (NaN included). -/
theorem rsquared_facade_value {G : Type} (optimize : G → Nat → G × Nat)
    (pearson : G → Scalar × Scalar) (self : EvaluatorBase) (genotype : G) :
    let out := RSquaredEvaluator.call optimize pearson self genotype
    let varX := (pearson out.2.1).1
    let r := (pearson out.2.1).2
    out.1 =
        (if varX.lt RSquaredEvaluator.tolerance = true then Scalar.finite 1
         else if (r.mul r).isfinite = true ∧ (r.mul r).ge (Scalar.finite 0) = true ∧
            (Scalar.finite 1).ge (r.mul r) = true
          then (Scalar.finite 1).sub (r.mul r)
          else Scalar.finite 1) ∧
      (∃ q : ℚ, out.1 = Scalar.finite q ∧ 0 ≤ q ∧ q ≤ 1) ∧
      out.1.ge (Scalar.finite 0) = true ∧ (Scalar.finite 1).ge out.1 = true := by
  intro out varX r
  have hout : out.1 =
      (if varX.lt RSquaredEvaluator.tolerance = true then Scalar.finite 1
       else if (r.mul r).isfinite = true ∧ (r.mul r).ge (Scalar.finite 0) = true ∧
          (Scalar.finite 1).ge (r.mul r) = true
        then (Scalar.finite 1).sub (r.mul r)
        else Scalar.finite 1) := by
    simp only [varX, r, out, rsquared_call_eq]
  have hq : ∃ q : ℚ, out.1 = Scalar.finite q ∧ 0 ≤ q ∧ q ≤ 1 := by
    rw [hout]
    by_cases hlt : varX.lt RSquaredEvaluator.tolerance = true
    · exact ⟨1, by simp [hlt], by norm_num, le_refl _⟩
    · simp only [hlt, if_false, Bool.false_eq_true]
      exact rsquared_clamp_range _
  obtain ⟨q, hq1, hq2, hq3⟩ := hq
  refine ⟨hout, ⟨q, hq1, hq2, hq3⟩, ?_, ?_⟩
  · rw [hq1]; simp [Scalar.ge, hq2]
  · rw [hq1]; simp [Scalar.ge, hq3]

/-- C12: every invocation of either fitness facade increases `fitnessEvaluations` by
exactly 1, whatever the path taken (the early return of the R² facade for a
degenerate constant model and the sentinel return of the NMSE facade included). -/
theorem fitness_evaluations_incremented {G : Type} (UpperBound : Scalar)
    (optimize : G → Nat → G × Nat) (nmseOf : G → Scalar) (pearson : G → Scalar × Scalar)
    (self : EvaluatorBase) (genotype : G) :
    (NormalizedMeanSquaredErrorEvaluator.call UpperBound optimize nmseOf self
        genotype).2.2.fitnessEvaluations = self.fitnessEvaluations + 1 ∧
    (RSquaredEvaluator.call optimize pearson self genotype).2.2.fitnessEvaluations =
      self.fitnessEvaluations + 1 := by
  rw [nmse_call_eq, rsquared_call_eq]
  exact ⟨rfl, rfl⟩

/-- C13: in both fitness facades the local optimizer runs exactly once when the
iteration limit is `> 0` (on the given genotype, with that limit) and then
`localEvaluations` grows by the iteration count of its summary; when the limit is 0
it does not run, the genotype is the given one and `localEvaluations` is unchanged. -/
theorem local_optimizer_invocation {G : Type} (UpperBound : Scalar)
    (optimize : G → Nat → G × Nat) (nmseOf : G → Scalar) (pearson : G → Scalar × Scalar)
    (self : EvaluatorBase) (genotype : G) :
    let outN := NormalizedMeanSquaredErrorEvaluator.call UpperBound (countingOptimizer optimize)
      (fun g => nmseOf g.1) self (genotype, 0)
    let outR := RSquaredEvaluator.call (countingOptimizer optimize)
      (fun g => pearson g.1) self (genotype, 0)
    (outN.2.1 = (if 0 < self.iterations
        then ((optimize genotype self.iterations).1, 1) else (genotype, 0)) ∧
      outN.2.2.localEvaluations = self.localEvaluations +
        (if 0 < self.iterations then (optimize genotype self.iterations).2 else 0)) ∧
    (outR.2.1 = (if 0 < self.iterations
        then ((optimize genotype self.iterations).1, 1) else (genotype, 0)) ∧
      outR.2.2.localEvaluations = self.localEvaluations +
        (if 0 < self.iterations then (optimize genotype self.iterations).2 else 0)) := by
  intro outN outR
  simp only [outN, outR, nmse_call_eq, rsquared_call_eq, countingOptimizer]
  by_cases hit : 0 < self.iterations <;> simp [hit]

/-! ## The naive dispatch against the grouped dispatch -/

theorem simple_nary_loop_eq {α : Type} [Field α] (N : NodeType) (nodes : List Node) (p : Nat)
    (hpS : p < SIZE) : ∀ (k i : Nat) (m : Mat α) (cs : List Nat),
    walkFrom nodes (k + 1) i = some cs → i < p → p < m.length →
    ∃ m', simple_nary_loop N nodes p k i m = some m' ∧ m'.length = m.length ∧
      col m' p = (cs.tail.map (col m)).foldl (fun r x => op.accumulate N r x []) (col m p) ∧
      ∀ q, q ≠ p → col m' q = col m q
  | 0, i, m, cs, hw, _, _ => by
    obtain ⟨rfl, _⟩ := walk_last hw
    exact ⟨m, rfl, rfl, rfl, fun _ _ => rfl⟩
  | k + 1, i, m, cs, hw, hi, hp => by
    obtain ⟨c', cs', hn, hlt, rfl, hw'⟩ := walk_step hw (lt_trans hi hpS)
    have hc'p : c' < p := lt_trans hlt hi
    have hc'm : c' < m.length := lt_trans hc'p hp
    obtain ⟨m', h1, h2, h3, h4⟩ := simple_nary_loop_eq N nodes p hpS k c'
      (m.set p (op.accumulate N (col m p) (col m c') [])) cs' hw' hc'p (by simpa using hp)
    have hhead := walkFrom_head hw'
    obtain ⟨t, rfl⟩ : ∃ t, cs' = c' :: t := by
      cases cs' with
      | nil => simp at hhead
      | cons a t => simp at hhead; exact ⟨t, by rw [hhead]⟩
    have hle := walkFrom_le _ _ _ hw'
    have hcols : t.map (col (m.set p (op.accumulate N (col m p) (col m c') []))) =
        t.map (col m) :=
      List.map_congr_left fun c hc =>
        col_set_ne _ _ _ _ (ne_of_lt (lt_of_le_of_lt (hle c (List.mem_cons_of_mem _ hc)) hc'p))
    refine ⟨m', ?_, ?_, ?_, ?_⟩
    · simp only [simple_nary_loop, hn, Option.some_bind, List.getElem?_eq_getElem hp,
        List.getElem?_eq_getElem hc'm]
      simp only [col, List.getElem?_eq_getElem hp, List.getElem?_eq_getElem hc'm,
        Option.getD_some] at h1
      exact h1
    · rw [h2, List.length_set]
    · rw [h3, col_set_self _ _ _ hp]
      simp only [List.tail_cons, hcols, List.map_cons, List.foldl_cons]
    · intro q hq
      rw [h4 q hq, col_set_ne _ _ _ _ hq]

/-- The function `dispatch_op_simple_nary` on a well-formed walk, in terms of `naive`. -/
theorem dispatch_op_simple_nary_eq {α : Type} [Field α] (N : NodeType) (m : Mat α)
    (nodes : List Node) (p : Nat) (nd : Node) (cs : List Nat)
    (hnd : nodes[p]? = some nd) (hn : 0 < nd.Arity) (hp : p < m.length) (hpS : p < SIZE)
    (hw : childWalk nodes p nd.Arity = some cs) :
    ∃ m', dispatch_op_simple_nary N m nodes p = some m' ∧ m'.length = m.length ∧
      col m' p = naive N (cs.map (col m)) := by
  obtain ⟨h1, hw⟩ := childWalk_pos hw hn
  have hsub : (p + SIZE - 1) % SIZE = p - 1 := by
    have : p + SIZE - 1 = (p - 1) + SIZE := by omega
    rw [this, Nat.add_mod_right]
    exact Nat.mod_eq_of_lt (by omega)
  have hi : p - 1 < m.length := by omega
  obtain ⟨k, hk⟩ : ∃ k, nd.Arity = k + 1 := ⟨nd.Arity - 1, by omega⟩
  rw [hk] at hw
  have hhead := walkFrom_head hw
  obtain ⟨t, rfl⟩ : ∃ t, cs = (p - 1) :: t := by
    cases cs with
    | nil => simp at hhead
    | cons a t => simp at hhead; exact ⟨t, by rw [hhead]⟩
  have hle := walkFrom_le _ _ _ hw
  simp only [dispatch_op_simple_nary, hnd, List.getElem?_eq_getElem hp, hsub,
    List.getElem?_eq_getElem hi, hk]
  by_cases hk0 : k = 0
  · subst hk0
    obtain ⟨hcs, _⟩ := walk_last hw
    simp only [List.cons.injEq, true_and] at hcs
    subst hcs
    simp only [zero_add, if_true]
    refine ⟨_, rfl, List.length_set _ _ _, ?_⟩
    rw [col_set_self _ _ _ hp]
    simp [naive, col, List.getElem?_eq_getElem hi]
  · have hne : ¬ (k + 1 = 1) := by omega
    simp only [hne, if_false, Nat.add_sub_cancel]
    obtain ⟨m', h1', h2, h3, _⟩ := simple_nary_loop_eq N nodes p hpS k (p - 1)
      (m.set p (m[p - 1])) ((p - 1) :: t) hw (by omega) (by simpa using hp)
    refine ⟨m', h1', by rw [h2, List.length_set], ?_⟩
    have hcols : t.map (col (m.set p (m[p - 1]))) = t.map (col m) :=
      List.map_congr_left fun c hc =>
        col_set_ne _ _ _ _ (ne_of_lt (lt_of_le_of_lt (hle c (List.mem_cons_of_mem _ hc))
          (by omega)))
    rw [h3, col_set_self _ _ _ hp]
    simp only [List.tail_cons, hcols, List.map_cons]
    have ht : t ≠ [] := by
      intro h
      have := walkFrom_length _ _ _ hw
      rw [h] at this
      simp at this
      omega
    have hx : col m (p - 1) = m[p - 1] := by simp [col, List.getElem?_eq_getElem hi]
    cases t with
    | nil => exact absurd rfl ht
    | cons a t' => simp [naive, hx]

theorem foldl_sub_acc {α : Type} [Field α] (r : Fin BATCHSIZE) :
    ∀ (xs : List (Column α)) (a : Column α),
      (xs.foldl (fun ret x => op.accumulate NodeType.Sub ret x []) a) r =
        a r - (xs.map (· r)).sum
  | [], a => by simp
  | x :: xs, a => by
    rw [List.foldl_cons, foldl_sub_acc r xs]
    simp [op.accumulate]
    ring

theorem naive_sub {α : Type} [Field α] (r : Fin BATCHSIZE) (x1 : Column α) :
    ∀ (xs : List (Column α)),
      naive NodeType.Sub (x1 :: xs) r = (if xs.length = 0 then -(x1 r) else x1 r - (xs.map (· r)).sum)
  | [] => by simp [naive, op.apply]
  | x2 :: xs => by
    simp only [naive, foldl_sub_acc]
    simp

theorem foldl_add_acc {α : Type} [Field α] (r : Fin BATCHSIZE) :
    ∀ (xs : List (Column α)) (a : Column α),
      (xs.foldl (fun ret x => op.accumulate NodeType.Add ret x []) a) r =
        a r + (xs.map (· r)).sum
  | [], a => by simp
  | x :: xs, a => by
    rw [List.foldl_cons, foldl_add_acc r xs]
    simp [op.accumulate]
    ring

theorem naive_add {α : Type} [Field α] (r : Fin BATCHSIZE) (x1 : Column α) :
    ∀ (xs : List (Column α)),
      naive NodeType.Add (x1 :: xs) r = ((x1 :: xs).map (· r)).sum
  | [] => by simp [naive, op.apply]
  | x2 :: xs => by
    simp only [naive, foldl_add_acc]
    simp

theorem foldl_mul_acc {α : Type} [Field α] (r : Fin BATCHSIZE) :
    ∀ (xs : List (Column α)) (a : Column α),
      (xs.foldl (fun ret x => op.accumulate NodeType.Mul ret x []) a) r =
        a r * (xs.map (· r)).prod
  | [], a => by simp
  | x :: xs, a => by
    rw [List.foldl_cons, foldl_mul_acc r xs]
    simp [op.accumulate]
    ring

theorem naive_mul {α : Type} [Field α] (r : Fin BATCHSIZE) (x1 : Column α) :
    ∀ (xs : List (Column α)),
      naive NodeType.Mul (x1 :: xs) r = ((x1 :: xs).map (· r)).prod
  | [] => by simp [naive, op.apply]
  | x2 :: xs => by
    simp only [naive, foldl_mul_acc]
    simp

theorem foldl_div_acc {α : Type} [Field α] (r : Fin BATCHSIZE) :
    ∀ (xs : List (Column α)) (a : Column α),
      (xs.foldl (fun ret x => op.accumulate NodeType.Div ret x []) a) r =
        a r / (xs.map (· r)).prod
  | [], a => by simp
  | x :: xs, a => by
    rw [List.foldl_cons, foldl_div_acc r xs]
    simp [op.accumulate]
    ring

theorem naive_div {α : Type} [Field α] (r : Fin BATCHSIZE) (x1 : Column α) :
    ∀ (xs : List (Column α)),
      naive NodeType.Div (x1 :: xs) r = (if xs.length = 0 then 1 / x1 r else x1 r / (xs.map (· r)).prod)
  | [] => by simp [naive, op.apply]
  | x2 :: xs => by
    simp only [naive, foldl_div_acc]
    simp

/-- C16: for each kind among Add, Sub, Mul and Div, every arity `n >= 1` and every
scratch matrix and node array with a well-formed child walk, `dispatch_op` and
`dispatch_op_simple_nary` both return and leave the same column `p`, row by row in
exact arithmetic. -/
theorem dispatch_op_agrees_with_simple_nary {α : Type} [Field α] (N : NodeType) (m : Mat α)
    (nodes : List Node) (p : Nat) (nd : Node) (cs : List Nat)
    (hN : N = NodeType.Add ∨ N = NodeType.Sub ∨ N = NodeType.Mul ∨ N = NodeType.Div)
    (hnd : nodes[p]? = some nd) (hn : 1 ≤ nd.Arity) (hp : p < m.length) (hpS : p < SIZE)
    (hw : childWalk nodes p nd.Arity = some cs) :
    ∃ s' m', dispatch_op N m nodes p = some s' ∧
      dispatch_op_simple_nary N m nodes p = some m' ∧
      s'.m.length = m.length ∧ m'.length = m.length ∧
      ∀ r, col s'.m p r = col m' p r := by
  obtain ⟨m', h1, h2, h3⟩ := dispatch_op_simple_nary_eq N m nodes p nd cs hnd hn hp hpS hw
  have hlen : cs.length = nd.Arity := childWalk_length hw
  obtain ⟨c1, t, rfl⟩ : ∃ c1 t, cs = c1 :: t := by
    cases cs with
    | nil => simp at hlen; omega
    | cons a l => exact ⟨a, l, rfl⟩
  refine ⟨_, m', dispatch_op_eq N m nodes p nd _ hnd hn hp hpS hw, h1,
    List.length_set _ _ _, h2, fun r => ?_⟩
  rw [h3, col_set_self _ _ _ hp, List.map_cons]
  rcases hN with rfl | rfl | rfl | rfl
  · rw [grouped_add_apply, naive_add]
  · rw [grouped_sub_apply, naive_sub]
  · rw [grouped_mul_apply, naive_mul]
  · rw [grouped_div_apply, naive_div]

theorem dispatch_op_agrees_with_simple_nary_witness :
    childWalk (nodes6 NodeType.Div) 6 6 = some [5, 4, 3, 2, 1, 0] ∧
    ∃ s' m', dispatch_op NodeType.Div mat6 (nodes6 NodeType.Div) 6 = some s' ∧
      dispatch_op_simple_nary NodeType.Div mat6 (nodes6 NodeType.Div) 6 = some m' ∧
      s'.m.length = 7 ∧ m'.length = 7 ∧
      ∀ r, col s'.m 6 r = col m' 6 r :=
  ⟨by decide, dispatch_op_agrees_with_simple_nary NodeType.Div mat6 (nodes6 NodeType.Div) 6
    (naryNode NodeType.Div 6 6) [5, 4, 3, 2, 1, 0] (by decide) rfl (by decide) (by decide)
    (by decide) (by decide)⟩

/-! ## What `dispatch_op` reads -/

theorem grouped_apply_ret {α : Type} [Field α] (N : NodeType) (ret ret' x1 : Column α) :
    ∀ (xs : List (Column α)),
      grouped N false ret (x1 :: xs) = grouped N false ret' (x1 :: xs)
  | [] => by simp [grouped, kernel]
  | [_] => by simp [grouped, kernel]
  | [_, _] => by simp [grouped, kernel]
  | [_, _, _] => by simp [grouped, kernel]
  | _ :: _ :: _ :: _ :: _ => by simp [grouped, kernel]

/-- C19: the column `dispatch_op` writes for a node of arity `n >= 1` depends on the
child columns only: on two scratch matrices that agree on the child columns
`c_1..c_n` (same node array, same `p`) both calls return and leave the same column
`p`, whatever column `p` and the other columns held before. -/
theorem dispatch_op_children_only {α : Type} [Field α] (N : NodeType) (m1 m2 : Mat α)
    (nodes : List Node) (p : Nat) (nd : Node) (cs : List Nat)
    (hnd : nodes[p]? = some nd) (hn : 1 ≤ nd.Arity)
    (hp1 : p < m1.length) (hp2 : p < m2.length) (hpS : p < SIZE)
    (hw : childWalk nodes p nd.Arity = some cs)
    (hagree : ∀ c ∈ cs, col m1 c = col m2 c) :
    ∃ s1 s2, dispatch_op N m1 nodes p = some s1 ∧ dispatch_op N m2 nodes p = some s2 ∧
      col s1.m p = col s2.m p := by
  have hlen : cs.length = nd.Arity := childWalk_length hw
  obtain ⟨c1, t, rfl⟩ : ∃ c1 t, cs = c1 :: t := by
    cases cs with
    | nil => simp at hlen; omega
    | cons a l => exact ⟨a, l, rfl⟩
  refine ⟨_, _, dispatch_op_eq N m1 nodes p nd _ hnd hn hp1 hpS hw,
    dispatch_op_eq N m2 nodes p nd _ hnd hn hp2 hpS hw, ?_⟩
  have hcols : (c1 :: t).map (col m1) = (c1 :: t).map (col m2) :=
    List.map_congr_left hagree
  rw [col_set_self _ _ _ hp1, col_set_self _ _ _ hp2, hcols, List.map_cons]
  exact grouped_apply_ret N _ _ _ _

theorem dispatch_op_children_only_witness :
    childWalk nodesS4 3 3 = some [2, 1, 0] ∧
    (∀ c ∈ [2, 1, 0], col matS4 c = col (matS4.set 3 (constColumn 77) ++ [constColumn 5]) c) ∧
    ∃ s1 s2, dispatch_op NodeType.Sub matS4 nodesS4 3 = some s1 ∧
      dispatch_op NodeType.Sub (matS4.set 3 (constColumn 77) ++ [constColumn 5]) nodesS4 3 =
        some s2 ∧
      col s1.m 3 = col s2.m 3 := by
  have hagree : ∀ c ∈ [2, 1, 0],
      col matS4 c = col (matS4.set 3 (constColumn 77) ++ [constColumn 5]) c := by
    intro c hc
    simp only [List.mem_cons, List.mem_singleton, List.not_mem_nil, or_false] at hc
    rcases hc with rfl | rfl | rfl <;> rfl
  exact ⟨by decide, hagree, dispatch_op_children_only NodeType.Sub matS4
    (matS4.set 3 (constColumn 77) ++ [constColumn 5]) nodesS4 3 (naryNode NodeType.Sub 3 3)
    [2, 1, 0] rfl (by decide) (by decide) (by decide) (by decide) (by decide) hagree⟩

theorem Forest.roots_ge (off : Nat) (F : Forest) : ∀ c ∈ F.roots off, off ≤ c := by
  induction F with
  | nil => simp [Forest.roots]
  | snoc f ch r ihf _ =>
    intro c hc
    simp only [Forest.roots, List.mem_cons] at hc
    rcases hc with rfl | hc
    · omega
    · exact ihf c hc

/-- Every node of a valid forest: its `Length` does not exceed its position and the
roots of its child subtrees lie in the `Length` positions before it. -/
theorem Forest.entries_bounds (F : Forest) : ∀ (off : Nat), F.Valid →
    ∀ e ∈ F.entries off, e.2.1.Length ≤ e.1 ∧ ∀ c ∈ e.2.2, e.1 - e.2.1.Length ≤ c ∧ c < e.1 := by
  induction F with
  | nil => intro off _ e he; simp [Forest.entries] at he
  | snoc f ch r ihf ihch =>
    intro off hv e he
    obtain ⟨hvf, hvch, _, hlen⟩ := hv
    simp only [Forest.entries, List.mem_append, List.mem_singleton] at he
    rcases he with he | he | rfl
    · exact ihf off hvf e he
    · exact ihch _ hvch e he
    · refine ⟨by simp only [hlen]; omega, fun c hc => ?_⟩
      have h1 := Forest.roots_ge _ ch c hc
      have h2 := Forest.roots_lt _ ch c hc
      simp only [hlen]
      omega

theorem mapM_col_congr {α : Type} (m1 m2 : Mat α) : ∀ (args : List Nat),
    (∀ c ∈ args, m1[c]? = m2[c]?) →
      args.mapM (fun c => m1[c]?) = args.mapM (fun c => m2[c]?)
  | [], _ => rfl
  | a :: rest, h => by
    rw [List.mapM_cons, List.mapM_cons, h a (List.mem_cons_self _ _),
      mapM_col_congr m1 m2 rest (fun c hc => h c (List.mem_cons_of_mem _ hc))]

/-- One kernel invocation reads no other column than those of `readsOf`: on two
scratch matrices that agree on them it leaves the same result column. -/
theorem invoke_reads {α : Type} [Field α] (N : NodeType) (p : Nat) (continued : Bool)
    (a1 : Nat) (args : List Nat) (s1 s2 : EvalState α)
    (hp1 : p < s1.m.length) (hp2 : p < s2.m.length)
    (h : ∀ c ∈ readsOf p ⟨continued, a1 :: args⟩, s1.m[c]? = s2.m[c]?) :
    (invoke N p continued a1 args s1).map (fun s => s.m[p]?) =
      (invoke N p continued a1 args s2).map (fun s => s.m[p]?) := by
  have ha1 : s1.m[a1]? = s2.m[a1]? := by
    apply h
    cases continued <;> simp [readsOf]
  have hargs : args.mapM (fun c => s1.m[c]?) = args.mapM (fun c => s2.m[c]?) := by
    apply mapM_col_congr
    intro c hc
    apply h
    cases continued <;> simp [readsOf, hc]
  unfold invoke
  rw [ha1, hargs, List.getElem?_eq_getElem hp1, List.getElem?_eq_getElem hp2]
  cases hx : s2.m[a1]? with
  | none => rfl
  | some x1 =>
    cases hxs : args.mapM (fun c => s2.m[c]?) with
    | none => rfl
    | some xs =>
      cases continued with
      | false => simp [hp1, hp2]
      | true =>
        have hpp : s1.m[p]? = s2.m[p]? := h p (by simp [readsOf])
        rw [List.getElem?_eq_getElem hp1, List.getElem?_eq_getElem hp2] at hpp
        simp only [Option.some.injEq] at hpp
        simp [hp1, hp2, hpp]

theorem callsOf_exists_continued (cs : List Nat) :
    (∃ call ∈ callsOf false cs, call.continued = true) ↔ 5 < cs.length := by
  have hl := callsOf_length false cs
  constructor
  · rintro ⟨call, hmem, hc⟩
    obtain ⟨k, hk⟩ := List.getElem?_of_mem hmem
    obtain ⟨h1, _⟩ := callsOf_getElem false cs k call hk
    have hk0 : k ≠ 0 := by
      intro h0
      rw [h0] at h1
      simp [hc] at h1
    have hklt : k < (callsOf false cs).length := (List.getElem?_eq_some.mp hk).1
    omega
  · intro h5
    have h1 : 1 < (callsOf false cs).length := by omega
    refine ⟨(callsOf false cs)[1], List.getElem_mem _, ?_⟩
    have := (callsOf_getElem false cs 1 _ (List.getElem?_eq_getElem h1)).1
    simpa using this

theorem tree6_nodes : tree6.nodes = nodes6 NodeType.Sub := rfl

/-- C20, as stated, fails: `nodes6 NodeType.Sub` is a valid postfix tree whose root,
at `p = 6`, has arity 6 and `Length` 6; `dispatch_op` makes an `apply` call on the
columns 5, 4, 3, 2, 1 and then an `accumulate` call on column 0, and this second
call reads column 6 itself (its result changes with the content of column 6 alone),
which is outside `[p - Length(p), p - 1] = [0, 5]`. -/
theorem accumulate_reads_result_column :
    tree6.Valid ∧ tree6.nodes = nodes6 NodeType.Sub ∧
    (nodes6 NodeType.Sub)[6]? = some (naryNode NodeType.Sub 6 6) ∧
    (∃ s', dispatch_op NodeType.Sub mat6 (nodes6 NodeType.Sub) 6 = some s' ∧
      s'.calls = [⟨false, [5, 4, 3, 2, 1]⟩, ⟨true, [0]⟩]) ∧
    (∀ c, c ≠ 6 → col mat6 c = col (mat6.set 6 (constColumn 86)) c) ∧
    (∃ s1 s2, invoke NodeType.Sub 6 true 0 [] ⟨mat6, []⟩ = some s1 ∧
      invoke NodeType.Sub 6 true 0 [] ⟨mat6.set 6 (constColumn 86), []⟩ = some s2 ∧
      ∀ r, col s1.m 6 r = -1 ∧ col s2.m 6 r = 85 ∧ col s1.m 6 r ≠ col s2.m 6 r) ∧
    6 ∈ readsOf 6 ⟨true, [0]⟩ ∧ ¬ (6 - 6 ≤ 6 ∧ 6 ≤ 6 - 1) := by
  refine ⟨by decide, rfl, rfl, ⟨_, dispatch_op_eq NodeType.Sub mat6 (nodes6 NodeType.Sub) 6
    (naryNode NodeType.Sub 6 6) [5, 4, 3, 2, 1, 0] rfl (by decide) (by decide) (by decide)
    (by decide), rfl⟩, ?_, ?_, by decide, by decide⟩
  · intro c hc
    exact (col_set_ne _ _ _ _ hc).symm
  · refine ⟨_, _, invoke_eq NodeType.Sub 6 true 0 [] ⟨mat6, []⟩ (by decide) (by decide)
      (by simp), invoke_eq NodeType.Sub 6 true 0 [] ⟨mat6.set 6 (constColumn 86), []⟩
      (by decide) (by decide) (by simp), fun r => ?_⟩
    have h1 : col (mat6.set 6 (kernel NodeType.Sub true (col mat6 6) (col mat6 0)
        (([] : List Nat).map (col mat6)))) 6 r = -1 := by
      rw [col_set_self _ _ _ (by decide)]
      norm_num [kernel, op.accumulate, col, mat6, constColumn]
    have h2 : col ((mat6.set 6 (constColumn 86)).set 6 (kernel NodeType.Sub true
        (col (mat6.set 6 (constColumn 86)) 6) (col (mat6.set 6 (constColumn 86)) 0)
        (([] : List Nat).map (col (mat6.set 6 (constColumn 86)))))) 6 r = 85 := by
      rw [col_set_self _ _ _ (by decide)]
      norm_num [kernel, op.accumulate, col, mat6, constColumn]
    exact ⟨h1, h2, by rw [h1, h2]; norm_num⟩

/-- C20, amended: in a valid postfix tree, for a node `p` of arity `n >= 1`,
`dispatch_op` returns and the operand columns it passes to the kernels are `n`
indices of the subtree range `[p - Length(p), p - 1]`, strictly decreasing, the
first being `p - 1` (with `1 <= p`) and each next one being `c - Length(c) - 1`
without underflow (`c' + Length(c) + 1 = c` in the natural numbers): the look-ahead
index computed after a full group of five is not among them.  The only other column
read is the result column `p` itself, by the `accumulate` calls, which occur exactly
when `n > 5`; so every column read lies in `[p - Length(p), p]`. -/
theorem dispatch_op_reads_in_subtree {α : Type} [Field α] (N : NodeType) (T : Forest)
    (m : Mat α) (p : Nat) (nd : Node)
    (hv : T.Valid) (hnd : T.nodes[p]? = some nd) (hn : 1 ≤ nd.Arity)
    (hp : p < m.length) (hpS : p < SIZE) :
    ∃ s', dispatch_op N m T.nodes p = some s' ∧
      ((s'.calls.map (·.args)).flatten).length = nd.Arity ∧
      nd.Length ≤ p ∧ 1 ≤ p ∧
      (∀ c ∈ (s'.calls.map (·.args)).flatten, p - nd.Length ≤ c ∧ c ≤ p - 1) ∧
      ((s'.calls.map (·.args)).flatten).Pairwise (· > ·) ∧
      ((s'.calls.map (·.args)).flatten).head? = some (p - 1) ∧
      List.Chain' (fun c c' => c' + lengthAt T.nodes c + 1 = c)
        ((s'.calls.map (·.args)).flatten) ∧
      (∀ call ∈ s'.calls, ∀ c ∈ readsOf p call,
        (c = p ∧ call.continued = true ∨ c ∈ call.args) ∧ p - nd.Length ≤ c ∧ c ≤ p) ∧
      ((∃ call ∈ s'.calls, p ∈ readsOf p call) ↔ 5 < nd.Arity) := by
  have hpT : p < T.size := by
    have := (List.getElem?_eq_some.mp hnd).1
    rwa [Forest.nodes_length] at this
  obtain ⟨⟨q, nd', cs⟩, he, rfl⟩ := T.entries_cover 0 p (Nat.zero_le _) (by omega)
  have h := T.entries_spec [] [] hv _ he
  simp only [List.nil_append, List.append_nil] at h
  obtain ⟨h1, h2, _⟩ := h
  have hndeq : nd' = nd := by
    rw [hnd] at h1
    exact (Option.some.inj h1).symm
  subst hndeq
  obtain ⟨hb1, hb2⟩ := T.entries_bounds 0 hv _ he
  simp only at hb1 hb2 h2
  have hlen := childWalk_length h2
  obtain ⟨hp1, hw⟩ := childWalk_pos h2 hn
  obtain ⟨k, hk⟩ : ∃ k, nd'.Arity = k + 1 := ⟨nd'.Arity - 1, by omega⟩
  have hchain := walkFrom_chain _ _ _ hw
  have hhead : cs.head? = some (q - 1) := by
    rw [hk] at hw
    exact walkFrom_head hw
  have hargs : ∀ call ∈ callsOf false cs, ∀ c ∈ call.args, c ∈ cs := by
    intro call hcall c hc
    rw [← callsOf_join false cs]
    exact List.mem_flatten.mpr ⟨call.args, List.mem_map_of_mem _ hcall, hc⟩
  refine ⟨_, dispatch_op_eq N m T.nodes q nd' cs hnd hn hp hpS h2, ?_⟩
  simp only [callsOf_join]
  refine ⟨hlen, hb1, hp1, fun c hc => ?_, ?_, hhead, hchain, ?_, ?_⟩
  · have := hb2 c hc
    omega
  · have hlt : List.Chain' (fun c c' : Nat => c > c') cs :=
      hchain.imp fun {a b} hab => by omega
    exact List.chain'_iff_pairwise.mp hlt
  · intro call hcall c hc
    unfold readsOf at hc
    by_cases hcont : call.continued = true
    · simp only [hcont, if_true, List.mem_cons] at hc
      rcases hc with rfl | hc
      · exact ⟨Or.inl ⟨rfl, hcont⟩, Nat.sub_le _ _, le_refl _⟩
      · have := hb2 c (hargs call hcall c hc)
        exact ⟨Or.inr hc, this.1, by omega⟩
    · simp only [hcont, if_false] at hc
      have := hb2 c (hargs call hcall c hc)
      exact ⟨Or.inr hc, this.1, by omega⟩
  · rw [← hlen, ← callsOf_exists_continued]
    constructor
    · rintro ⟨call, hcall, hq⟩
      refine ⟨call, hcall, ?_⟩
      unfold readsOf at hq
      by_cases hcont : call.continued = true
      · exact hcont
      · simp only [hcont, if_false] at hq
        have := hb2 q (hargs call hcall q hq)
        omega
    · rintro ⟨call, hcall, hcont⟩
      exact ⟨call, hcall, by simp [readsOf, hcont]⟩

theorem dispatch_op_reads_in_subtree_witness :
    tree10.Valid ∧ nextArg tree10.nodes 0 = some (SIZE - 1) ∧
    ∃ s', dispatch_op NodeType.Add mat10 tree10.nodes 10 = some s' ∧
      ((s'.calls.map (·.args)).flatten).length = 10 ∧
      10 ≤ 10 ∧ 1 ≤ 10 ∧
      (∀ c ∈ (s'.calls.map (·.args)).flatten, 10 - 10 ≤ c ∧ c ≤ 10 - 1) ∧
      ((s'.calls.map (·.args)).flatten).Pairwise (· > ·) ∧
      ((s'.calls.map (·.args)).flatten).head? = some (10 - 1) ∧
      List.Chain' (fun c c' => c' + lengthAt tree10.nodes c + 1 = c)
        ((s'.calls.map (·.args)).flatten) ∧
      (∀ call ∈ s'.calls, ∀ c ∈ readsOf 10 call,
        (c = 10 ∧ call.continued = true ∨ c ∈ call.args) ∧ 10 - 10 ≤ c ∧ c ≤ 10) ∧
      ((∃ call ∈ s'.calls, 10 ∈ readsOf 10 call) ↔ 5 < 10) :=
  ⟨by decide, by decide, dispatch_op_reads_in_subtree NodeType.Add tree10 mat10 10
    (naryNode NodeType.Add 10 10) (by decide) rfl (by decide) (by decide) (by decide)⟩

/-! ## The constructor of `Dataset` -/

theorem fillVariables_spec (names : List String) : ∀ (n i : Nat) (vs : List Variable),
    fillVariables names i n = some vs →
      vs.map (·.Index) = List.range' i n ∧ vs.map (·.Name) = (names.drop i).take n ∧
      ∀ v ∈ vs, names[v.Index]? = some v.Name
  | 0, i, vs, h => by
    simp [fillVariables] at h
    subst h
    simp
  | n + 1, i, vs, h => by
    unfold fillVariables at h
    cases hname : names[i]? with
    | none => simp [hname] at h
    | some name =>
      simp only [hname, Option.map_eq_some'] at h
      obtain ⟨vs', hvs', rfl⟩ := h
      obtain ⟨h1, h2, h3⟩ := fillVariables_spec names n (i + 1) vs' hvs'
      have hi : i < names.length := (List.getElem?_eq_some.mp hname).1
      have hget : names[i] = name := (List.getElem?_eq_some.mp hname).2
      refine ⟨?_, ?_, ?_⟩
      · simp [h1, List.range'_succ]
      · rw [List.drop_eq_getElem_cons hi, hget]
        simp [h2]
      · intro v hv
        rcases List.mem_cons.mp hv with rfl | hv
        · exact hname
        · exact h3 v hv

theorem zipWith_hash_map_index : ∀ (vs : List Variable) (hs : List Nat),
    vs.length = hs.length →
      (List.zipWith (fun v h => ({ v with Hash := h } : Variable)) vs hs).map (·.Index) =
        vs.map (·.Index)
  | [], [], _ => rfl
  | [], _ :: _, h => by simp at h
  | _ :: _, [], h => by simp at h
  | v :: vs, h :: hs, hl => by
    simp only [List.length_cons, Nat.add_right_cancel_iff] at hl
    simp [zipWith_hash_map_index vs hs hl]

theorem zipWith_hash_mem : ∀ (vs : List Variable) (hs : List Nat) (v : Variable),
    v ∈ List.zipWith (fun v h => ({ v with Hash := h } : Variable)) vs hs →
      ∃ v0 ∈ vs, v0.Name = v.Name ∧ v0.Index = v.Index
  | [], _, v, h => by simp at h
  | _ :: _, [], v, h => by simp at h
  | v0 :: vs, h0 :: hs, v, h => by
    simp only [List.zipWith_cons_cons, List.mem_cons] at h
    rcases h with rfl | h
    · exact ⟨v0, List.mem_cons_self _ _, rfl, rfl⟩
    · obtain ⟨w, hw, h1, h2⟩ := zipWith_hash_mem vs hs v h
      exact ⟨w, List.mem_cons_of_mem _ hw, h1, h2⟩

/-- The constructor, when it completes: the variables are the sorted initial
variables with the sorted hash values, the values are those of the row loop. -/
theorem Dataset.new_ok (parse : String → Option Scalar)
    (CompareWithSize : String → String → Bool)
    (sort : (Variable → Variable → Bool) → List Variable → List Variable) (jsf : Nat → Nat)
    (reader : CSVReader) (hasHeader : Bool) (d : Dataset)
    (hd : Dataset.new parse CompareWithSize sort jsf reader hasHeader = .ok d) :
    ∃ vars, fillVariables (if hasHeader then reader.col_names else []) 0
        reader.col_names.length = some vars ∧
      readRows parse reader.rows (List.replicate reader.col_names.length []) = .ok d.values ∧
      d.variables_ = List.zipWith (fun v h => ({ v with Hash := h } : Variable))
        (sort (fun a b => CompareWithSize a.Name b.Name) vars)
        (((List.range reader.col_names.length).map jsf).insertionSort (· ≤ ·)) := by
  unfold Dataset.new at hd
  simp only at hd
  cases hr : readRows parse reader.rows (List.replicate reader.col_names.length []) with
  | error e => simp [hr] at hd
  | ok values =>
    simp only [hr] at hd
    cases hf : fillVariables (if hasHeader then reader.col_names else []) 0
        reader.col_names.length with
    | none => simp [hf] at hd
    | some vars =>
      simp only [hf, Except.ok.injEq] at hd
      subst hd
      exact ⟨vars, rfl, rfl, rfl⟩

theorem compareWithSize_iff (a b : String) :
    compareWithSize a b = true ↔
      toLex (a.length, a.toList) < toLex (b.length, b.toList) := by
  rw [Prod.Lex.lt_iff]
  simp [compareWithSize]

/-- Insertion sort with the comparison by size, then text, meets the contract of
`std::sort`. -/
theorem insertionSortBy_sorts :
    SortsBy (insertionSortBy (fun a b => compareWithSize a.Name b.Name))
      (fun a b => compareWithSize a.Name b.Name) := by
  intro l
  refine ⟨List.perm_insertionSort _ l, ?_⟩
  have hr : ∀ a b : Variable, compareWithSize b.Name a.Name = false ↔
      toLex (a.Name.length, a.Name.toList) ≤ toLex (b.Name.length, b.Name.toList) := by
    intro a b
    rw [← not_lt, ← compareWithSize_iff]
    simp
  have htotal : IsTotal Variable
      (fun a b => compareWithSize b.Name a.Name = false) :=
    ⟨fun a b => by
      simp only [hr]
      exact le_total _ _⟩
  have htrans : IsTrans Variable
      (fun a b => compareWithSize b.Name a.Name = false) :=
    ⟨fun a b c => by
      simp only [hr]
      exact le_trans⟩
  exact @List.sorted_insertionSort Variable
    (fun a b => compareWithSize b.Name a.Name = false) _ htotal htrans l

theorem readFields_ok (parse : String → Option Scalar) :
    ∀ (row : List String) (i : Nat) (values values' : List (List Scalar)),
    readFields parse row i values = .ok values' →
      values'.length = values.length ∧
      ∀ j, values'[j]? = (values[j]?).map (fun column =>
        column ++ (if i ≤ j then ((row[j - i]?).bind parse).toList else []))
  | [], i, values, values', h => by
    simp only [readFields, Except.ok.injEq] at h
    subst h
    refine ⟨rfl, fun j => ?_⟩
    cases values[j]? <;> simp
  | field :: rest, i, values, values', h => by
    unfold readFields at h
    cases hp : parse field with
    | none => simp [hp] at h
    | some value =>
      simp only [hp] at h
      cases hc : values[i]? with
      | none => simp [hc] at h
      | some column =>
        simp only [hc] at h
        obtain ⟨h1, h2⟩ := readFields_ok parse rest (i + 1) _ values' h
        have hi : i < values.length := (List.getElem?_eq_some.mp hc).1
        refine ⟨by rw [h1, List.length_set], fun j => ?_⟩
        rw [h2 j]
        by_cases hji : j = i
        · subst hji
          simp [hi, hc, hp]
        · rw [List.getElem?_set_ne (Ne.symm hji)]
          by_cases hlt : j < i
          · have h3 : ¬ (i + 1 ≤ j) := by omega
            have h4 : ¬ (i ≤ j) := by omega
            simp [h3, h4]
          · have h3 : i + 1 ≤ j := by omega
            have h4 : i ≤ j := by omega
            have h5 : j - i = (j - (i + 1)) + 1 := by omega
            simp only [h3, h4, if_true, h5, List.getElem?_cons_succ]

theorem readRows_ok (parse : String → Option Scalar) :
    ∀ (rows : List (List String)) (values values' : List (List Scalar)),
    readRows parse rows values = .ok values' →
      values'.length = values.length ∧
      ∀ j : Nat, values'[j]? = (values[j]?).map (fun column =>
        column ++ rows.filterMap (fun (row : List String) => (row[j]?).bind parse))
  | [], values, values', h => by
    simp only [readRows, Except.ok.injEq] at h
    subst h
    refine ⟨rfl, fun j => ?_⟩
    cases values[j]? <;> simp
  | row :: rest, values, values', h => by
    unfold readRows at h
    cases hr : readFields parse row 0 values with
    | error e => simp [hr] at h
    | ok v1 =>
      simp only [hr] at h
      obtain ⟨h1, h2⟩ := readFields_ok parse row 0 values v1 hr
      obtain ⟨h3, h4⟩ := readRows_ok parse rest v1 values' h
      refine ⟨by rw [h3, h1], fun j => ?_⟩
      rw [h4 j, h2 j]
      cases values[j]? with
      | none => rfl
      | some column =>
        simp only [Option.map_some', Nat.zero_le, if_true, Nat.sub_zero, List.append_assoc,
          Option.some.injEq, List.append_cancel_left_eq]
        rw [List.filterMap_cons]
        cases (row[j]?).bind parse <;> simp

/-- C18: after Dataset construction the `Index` values of the variables are a
permutation of `0..ncol-1`, and every variable's `Index` is a position of its name
in the header, `values[Index]` being the column of the cells read at that position:
sorting the variables by name keeps each variable attached to its data. -/
theorem dataset_index_attached (parse : String → Option Scalar)
    (CompareWithSize : String → String → Bool)
    (sort : (Variable → Variable → Bool) → List Variable → List Variable) (jsf : Nat → Nat)
    (reader : CSVReader) (hasHeader : Bool) (d : Dataset)
    (hsort : SortsBy (sort (fun a b => CompareWithSize a.Name b.Name))
      (fun a b => CompareWithSize a.Name b.Name))
    (hd : Dataset.new parse CompareWithSize sort jsf reader hasHeader = .ok d) :
    (d.variables_.map (·.Index)).Perm (List.range reader.col_names.length) ∧
    ∀ v ∈ d.variables_, v.Index < reader.col_names.length ∧
      reader.col_names[v.Index]? = some v.Name ∧
      d.values[v.Index]? =
        some (reader.rows.filterMap (fun row => (row[v.Index]?).bind parse)) := by
  obtain ⟨vars, hf, hrows, hv⟩ :=
    Dataset.new_ok parse CompareWithSize sort jsf reader hasHeader d hd
  obtain ⟨hidx, _, hnames⟩ := fillVariables_spec _ _ _ _ hf
  obtain ⟨hperm, _⟩ := hsort vars
  have hlenv : vars.length = reader.col_names.length := by
    have := congrArg List.length hidx
    simpa using this
  have hlens : (sort (fun a b => CompareWithSize a.Name b.Name) vars).length =
      reader.col_names.length := by rw [hperm.length_eq, hlenv]
  have hlenh : (((List.range reader.col_names.length).map jsf).insertionSort (· ≤ ·)).length =
      reader.col_names.length := by simp [List.length_insertionSort]
  have hI := zipWith_hash_map_index _ _ (hlens.trans hlenh.symm)
  rw [← hv] at hI
  obtain ⟨_, hvals⟩ := readRows_ok parse reader.rows _ d.values hrows
  refine ⟨?_, fun v hvmem => ?_⟩
  · rw [hI, List.range_eq_range', ← hidx]
    exact hperm.map _
  · rw [hv] at hvmem
    obtain ⟨v0, hv0, hn, hi⟩ := zipWith_hash_mem _ _ v hvmem
    have hv0' : v0 ∈ vars := hperm.mem_iff.mp hv0
    have hlt : v0.Index < reader.col_names.length := by
      have : v0.Index ∈ vars.map (·.Index) := List.mem_map_of_mem _ hv0'
      rw [hidx] at this
      simpa using (List.mem_range'_1.mp this).2
    have hname := hnames v0 hv0'
    rw [← hn, ← hi]
    refine ⟨hlt, ?_, ?_⟩
    · cases hasHeader
      · simp at hname
      · simpa using hname
    · rw [hvals v0.Index]
      simp [List.getElem?_replicate, hlt]

theorem dataset_index_attached_witness :
    SortsBy (insertionSortBy (fun a b => compareWithSize a.Name b.Name))
      (fun a b => compareWithSize a.Name b.Name) ∧
    Dataset.new parseDigit compareWithSize insertionSortBy (fun k => 100 - k) readerBA true =
      .ok ⟨[⟨"a", 99, 1⟩, ⟨"b", 100, 0⟩],
        [[.finite 1, .finite 3], [.finite 2, .finite 4]]⟩ ∧
    (([⟨"a", 99, 1⟩, ⟨"b", 100, 0⟩] : List Variable).map (·.Index)).Perm (List.range 2) ∧
    ∀ v ∈ ([⟨"a", 99, 1⟩, ⟨"b", 100, 0⟩] : List Variable), v.Index < 2 ∧
      readerBA.col_names[v.Index]? = some v.Name ∧
      ([[.finite 1, .finite 3], [.finite 2, .finite 4]] : List (List Scalar))[v.Index]? =
        some (readerBA.rows.filterMap (fun row => (row[v.Index]?).bind parseDigit)) := by
  have h := dataset_index_attached parseDigit compareWithSize insertionSortBy
    (fun k => 100 - k) readerBA true
    ⟨[⟨"a", 99, 1⟩, ⟨"b", 100, 0⟩], [[.finite 1, .finite 3], [.finite 2, .finite 4]]⟩
    insertionSortBy_sorts rfl
  exact ⟨insertionSortBy_sorts, rfl, h.1, h.2⟩

theorem readFields_total (parse : String → Option Scalar) :
    ∀ (row : List String) (i : Nat) (values : List (List Scalar)),
    i + row.length ≤ values.length → (∀ f ∈ row, parse f ≠ none) →
      ∃ values', readFields parse row i values = .ok values'
  | [], _, values, _, _ => ⟨values, rfl⟩
  | field :: rest, i, values, hlen, hnum => by
    simp only [List.length_cons] at hlen
    have hi : i < values.length := by omega
    obtain ⟨value, hv⟩ := Option.ne_none_iff_exists'.mp (hnum field (List.mem_cons_self _ _))
    obtain ⟨values', h⟩ := readFields_total parse rest (i + 1)
      (values.set i (values[i] ++ [value])) (by rw [List.length_set]; omega)
      (fun f hf => hnum f (List.mem_cons_of_mem _ hf))
    exact ⟨values', by simp only [readFields, hv, List.getElem?_eq_getElem hi, h]⟩

theorem readFields_error (parse : String → Option Scalar) :
    ∀ (row : List String) (i : Nat) (values : List (List Scalar)) (f : String),
    i + row.length ≤ values.length → row.find? (fun f => (parse f).isNone) = some f →
      readFields parse row i values =
        .error (.runtime_error ("The field " ++ f ++ " could not be parsed as a number."))
  | [], _, _, f, _, h => by simp at h
  | field :: rest, i, values, f, hlen, hfind => by
    simp only [List.length_cons] at hlen
    have hi : i < values.length := by omega
    cases hp : parse field with
    | none =>
      simp only [List.find?_cons, hp, Option.isNone_none, Option.some.injEq] at hfind
      subst hfind
      simp only [readFields, hp]
    | some value =>
      simp only [List.find?_cons, hp, Option.isNone_some] at hfind
      have h := readFields_error parse rest (i + 1) (values.set i (values[i] ++ [value])) f
        (by rw [List.length_set]; omega) hfind
      simp only [readFields, hp, List.getElem?_eq_getElem hi, h]

theorem find?_eq_none_numeric (parse : String → Option Scalar) (row : List String)
    (h : row.find? (fun f => (parse f).isNone) = none) : ∀ f ∈ row, parse f ≠ none := by
  intro f hf hnone
  have := List.find?_eq_none.mp h f hf
  simp [hnone] at this

theorem readRows_total (parse : String → Option Scalar) :
    ∀ (rows : List (List String)) (values : List (List Scalar)),
    (∀ row ∈ rows, row.length ≤ values.length) → (∀ row ∈ rows, ∀ f ∈ row, parse f ≠ none) →
      ∃ values', readRows parse rows values = .ok values'
  | [], values, _, _ => ⟨values, rfl⟩
  | row :: rest, values, hlen, hnum => by
    obtain ⟨v1, h1⟩ := readFields_total parse row 0 values
      (by simpa using hlen row (List.mem_cons_self _ _)) (hnum row (List.mem_cons_self _ _))
    have hl := (readFields_ok parse row 0 values v1 h1).1
    obtain ⟨values', h⟩ := readRows_total parse rest v1
      (fun r hr => by rw [hl]; exact hlen r (List.mem_cons_of_mem _ hr))
      (fun r hr => hnum r (List.mem_cons_of_mem _ hr))
    exact ⟨values', by simp only [readRows, h1, h]⟩

theorem readRows_error (parse : String → Option Scalar) :
    ∀ (rows : List (List String)) (values : List (List Scalar)) (f : String),
    (∀ row ∈ rows, row.length ≤ values.length) →
    rows.flatten.find? (fun f => (parse f).isNone) = some f →
      readRows parse rows values =
        .error (.runtime_error ("The field " ++ f ++ " could not be parsed as a number."))
  | [], _, f, _, h => by simp at h
  | row :: rest, values, f, hlen, hfind => by
    have hrow : 0 + row.length ≤ values.length := by
      simpa using hlen row (List.mem_cons_self _ _)
    rw [List.flatten_cons, List.find?_append] at hfind
    cases hr : row.find? (fun f => (parse f).isNone) with
    | some g =>
      rw [hr] at hfind
      simp only [Option.or, Option.some.injEq] at hfind
      subst hfind
      simp only [readRows, readFields_error parse row 0 values g hrow hr]
    | none =>
      rw [hr] at hfind
      simp only [Option.or] at hfind
      obtain ⟨v1, h1⟩ := readFields_total parse row 0 values hrow
        (find?_eq_none_numeric parse row hr)
      have hl := (readFields_ok parse row 0 values v1 h1).1
      have h := readRows_error parse rest v1 f
        (fun r hr' => by rw [hl]; exact hlen r (List.mem_cons_of_mem _ hr')) hfind
      simp only [readRows, h1, h]

theorem fillVariables_total (names : List String) : ∀ (n i : Nat),
    i + n ≤ names.length → ∃ vs, fillVariables names i n = some vs
  | 0, _, _ => ⟨[], rfl⟩
  | n + 1, i, h => by
    have hi : i < names.length := by omega
    obtain ⟨vs, hvs⟩ := fillVariables_total names n (i + 1) (by omega)
    refine ⟨⟨names[i], 0, i⟩ :: vs, ?_⟩
    simp only [fillVariables, List.getElem?_eq_getElem hi, hvs, Option.map_some']

/-- The constructor on a file read with its header, whose rows are not longer than
the header: it throws the message naming the first cell that is not numeric (in
row-major order) when there is one, and completes when every cell is numeric. -/
theorem Dataset.new_with_header (parse : String → Option Scalar)
    (CompareWithSize : String → String → Bool)
    (sort : (Variable → Variable → Bool) → List Variable → List Variable) (jsf : Nat → Nat)
    (reader : CSVReader)
    (hrows : ∀ row ∈ reader.rows, row.length ≤ reader.col_names.length) :
    (∀ f, reader.rows.flatten.find? (fun f => (parse f).isNone) = some f →
      Dataset.new parse CompareWithSize sort jsf reader true =
        .error (.runtime_error ("The field " ++ f ++ " could not be parsed as a number."))) ∧
    (reader.rows.flatten.find? (fun f => (parse f).isNone) = none →
      ∃ d, Dataset.new parse CompareWithSize sort jsf reader true = .ok d) := by
  have hrows' : ∀ row ∈ reader.rows,
      row.length ≤ (List.replicate reader.col_names.length ([] : List Scalar)).length := by
    simpa using hrows
  constructor
  · intro f hf
    simp only [Dataset.new, readRows_error parse reader.rows _ f hrows' hf]
  · intro hnone
    have hnum : ∀ row ∈ reader.rows, ∀ f ∈ row, parse f ≠ none := by
      intro row hrow f hf
      exact find?_eq_none_numeric parse _ hnone f (List.mem_flatten.mpr ⟨row, hrow, hf⟩)
    obtain ⟨values, hv⟩ := readRows_total parse reader.rows _ hrows' hnum
    obtain ⟨vs, hvs⟩ := fillVariables_total reader.col_names reader.col_names.length 0
      (by omega)
    refine ⟨⟨List.zipWith (fun v h => ({ v with Hash := h } : Variable))
      (sort (fun a b => CompareWithSize a.Name b.Name) vs)
      (((List.range reader.col_names.length).map jsf).insertionSort (· ≤ ·)), values⟩, ?_⟩
    simp only [Dataset.new, hv, if_true, hvs]

/-- C15 at the failing input: read without header, the file with the header `a`
and the single numeric cell `1` does not give a dataset, the name lookup `names[0]`
leaving the empty vector `names`; read with its header it does. -/
theorem dataset_no_header_fails :
    (readerA.rows.flatten.find? (fun f => (parseDigit f).isNone) = none) ∧
    Dataset.new parseDigit compareWithSize insertionSortBy (fun k => 100 - k) readerA false =
      .error .out_of_range ∧
    Dataset.new parseDigit compareWithSize insertionSortBy (fun k => 100 - k) readerA true =
      .ok ⟨[⟨"a", 100, 0⟩], [[.finite 1]]⟩ :=
  ⟨rfl, rfl, rfl⟩

/-! ## The ranges of the command line -/

/-- C17, as stated, fails: over a dataset of 10 rows the range `[10, 10)` is a valid
Range (`0 <= 10 <= 10 <= 10`), it neither exceeds the rows nor has `start > end`,
and the validation rejects it. -/
theorem training_range_at_end_rejected :
    ((0 : Nat) ≤ 10 ∧ (10 : Nat) ≤ 10 ∧ (10 : Nat) ≤ 10) ∧
    (∀ test, mainRanges (some ⟨10, 10⟩) test 10 = MainOutcome.exit_failure_exceeds) ∧
    ¬ ∃ test tr te, mainRanges (some ⟨10, 10⟩) test 10 = MainOutcome.proceed tr te := by
  refine ⟨by decide, fun test => rfl, ?_⟩
  rintro ⟨test, tr, te, h⟩
  have : mainRanges (some ⟨10, 10⟩) test 10 = MainOutcome.exit_failure_exceeds := rfl
  rw [this] at h
  exact MainOutcome.noConfusion h

/-- C17, amended: the validation accepts the training range `[start, end)` over `N`
rows exactly when `start < N` and `start <= end <= N`, and then the run goes on with
this training range; it exits with failure exactly when `start >= N` or `end > N`
(the range is reported to exceed the data) or `start > end`. -/
theorem training_range_validation (start stop rows : Nat) (test : Option Range) :
    ((∃ te, mainRanges (some ⟨start, stop⟩) test rows = MainOutcome.proceed ⟨start, stop⟩ te) ↔
      (start < rows ∧ start ≤ stop ∧ stop ≤ rows)) ∧
    ((∃ tr te, mainRanges (some ⟨start, stop⟩) test rows = MainOutcome.proceed tr te) ↔
      (start < rows ∧ start ≤ stop ∧ stop ≤ rows)) ∧
    (mainRanges (some ⟨start, stop⟩) test rows = MainOutcome.exit_failure_exceeds ↔
      (start ≥ rows ∨ stop > rows)) ∧
    (mainRanges (some ⟨start, stop⟩) test rows = MainOutcome.exit_failure_invalid ↔
      (start < rows ∧ stop ≤ rows ∧ start > stop)) := by
  have hA : (start ≥ rows ∨ stop > rows) →
      mainRanges (some ⟨start, stop⟩) test rows = MainOutcome.exit_failure_exceeds := by
    intro h
    simp only [mainRanges, h, if_true]
  have hB : ¬ (start ≥ rows ∨ stop > rows) → start > stop →
      mainRanges (some ⟨start, stop⟩) test rows = MainOutcome.exit_failure_invalid := by
    intro h h'
    simp only [mainRanges, h, h', if_true, if_false]
  have hC : ¬ (start ≥ rows ∨ stop > rows) → ¬ (start > stop) →
      ∃ te, mainRanges (some ⟨start, stop⟩) test rows = MainOutcome.proceed ⟨start, stop⟩ te := by
    intro h h'
    simp only [mainRanges, h, h', if_false]
    exact ⟨_, rfl⟩
  by_cases h1 : start ≥ rows ∨ stop > rows
  · rw [hA h1]
    refine ⟨⟨?_, ?_⟩, ⟨?_, ?_⟩, ⟨fun _ => h1, fun _ => rfl⟩, ⟨?_, ?_⟩⟩
    · rintro ⟨te, h⟩; exact MainOutcome.noConfusion h
    · intro h; omega
    · rintro ⟨tr, te, h⟩; exact MainOutcome.noConfusion h
    · intro h; omega
    · intro h; exact MainOutcome.noConfusion h
    · intro h; omega
  · by_cases h2 : start > stop
    · rw [hB h1 h2]
      refine ⟨⟨?_, ?_⟩, ⟨?_, ?_⟩, ⟨?_, ?_⟩, ⟨fun _ => by omega, fun _ => rfl⟩⟩
      · rintro ⟨te, h⟩; exact MainOutcome.noConfusion h
      · intro h; omega
      · rintro ⟨tr, te, h⟩; exact MainOutcome.noConfusion h
      · intro h; omega
      · intro h; exact MainOutcome.noConfusion h
      · intro h; exact absurd h h1
    · obtain ⟨te, hte⟩ := hC h1 h2
      rw [hte]
      refine ⟨⟨fun _ => by omega, fun _ => ⟨_, rfl⟩⟩, ⟨fun _ => by omega, fun _ => ⟨_, _, rfl⟩⟩,
        ⟨?_, ?_⟩, ⟨?_, ?_⟩⟩
      · intro h; exact MainOutcome.noConfusion h
      · intro h; exact absurd h h1
      · intro h; exact MainOutcome.noConfusion h
      · intro h; omega

/-! ## The comparison operators of `Node` -/

/-- The operator `>` against the operator `<` with its operands exchanged: they
agree except on two nodes of equal `CalculatedHashValue`, where `a > b` is false. -/
theorem node_gt_iff (a b : Node) :
    Node.gt a b = true ↔
      (Node.lt b a = true ∧ a.CalculatedHashValue ≠ b.CalculatedHashValue) := by
  unfold Node.gt Node.le Node.eq Node.lt
  by_cases hc : a.CalculatedHashValue = b.CalculatedHashValue
  · simp [hc]
  · by_cases hh : a.HashValue = b.HashValue
    · have hh' : b.HashValue = b.HashValue := rfl
      simp only [hc, hh, if_true, decide_False, Bool.false_or, Bool.not_eq_true',
        decide_eq_false_iff_not, decide_eq_true_eq, ne_eq, not_false_eq_true, and_true]
      omega
    · have hh' : ¬ (b.HashValue = a.HashValue) := fun h => hh h.symm
      simp only [hc, hh, hh', if_false, decide_False, Bool.false_or, Bool.not_eq_true',
        decide_eq_false_iff_not, decide_eq_true_eq, ne_eq, not_false_eq_true, and_true]
      omega

/-- C21 at the failing input: for `a = Node(Mul)` and `b = Node(Add)`, both with
`CalculatedHashValue` 5, `b < a` holds (their `HashValue` are 1 and 2) while `a > b`
does not (`a == b` holds, so `a <= b` does); the operator `>=`, derived from `<`
alone, gives `a >= b`. -/
theorem node_gt_not_lt_flipped :
    nodeMul5.HashValue = 2 ∧ nodeAdd5.HashValue = 1 ∧
    nodeMul5.CalculatedHashValue = 5 ∧ nodeAdd5.CalculatedHashValue = 5 ∧
    Node.lt nodeAdd5 nodeMul5 = true ∧ Node.gt nodeMul5 nodeAdd5 = false ∧
    Node.eq nodeMul5 nodeAdd5 = true ∧ Node.le nodeMul5 nodeAdd5 = true ∧
    Node.ge nodeMul5 nodeAdd5 = true ∧
    ¬ (Node.gt nodeMul5 nodeAdd5 = true ↔ Node.lt nodeAdd5 nodeMul5 = true) := by
  decide

/-! ## The names of a dataset read without header -/

/-- Read without header, a file with at least one column never gives a dataset;
when its rows are read without error, the name lookup leaves the vector `names`. -/
theorem Dataset.new_no_header (parse : String → Option Scalar)
    (CompareWithSize : String → String → Bool)
    (sort : (Variable → Variable → Bool) → List Variable → List Variable) (jsf : Nat → Nat)
    (reader : CSVReader) (hcol : 1 ≤ reader.col_names.length) :
    (∀ d, Dataset.new parse CompareWithSize sort jsf reader false ≠ .ok d) ∧
    (∀ values,
      readRows parse reader.rows (List.replicate reader.col_names.length []) = .ok values →
      Dataset.new parse CompareWithSize sort jsf reader false = .error .out_of_range) := by
  obtain ⟨k, hk⟩ : ∃ k, reader.col_names.length = k + 1 :=
    ⟨reader.col_names.length - 1, by omega⟩
  have hfill : fillVariables [] 0 reader.col_names.length = none := by
    rw [hk]
    simp [fillVariables]
  constructor
  · intro d hd
    obtain ⟨vars, hf, _, _⟩ :=
      Dataset.new_ok parse CompareWithSize sort jsf reader false d hd
    simp only [Bool.false_eq_true, if_false] at hf
    rw [hfill] at hf
    exact Option.noConfusion hf
  · intro values hv
    simp only [Dataset.new, hv, Bool.false_eq_true, if_false, hfill]

/-- C22 at the failing input: the generator of the names runs over the empty vector
`names` and leaves it empty, so `names[0]` is not in bounds and, read without
header, the file with the header `b,a` and two rows of numbers gives no dataset: no
column receives the name `X1` or `X2` (which the generator would give to a vector
`names` of two elements). -/
theorem dataset_no_header_names :
    generatedNames [] = [] ∧
    (generatedNames [])[0]? = none ∧
    fillVariables (generatedNames []) 0 readerBA.col_names.length = none ∧
    Dataset.new parseDigit compareWithSize insertionSortBy (fun k => 100 - k) readerBA false =
      .error .out_of_range ∧
    generatedNames ["", ""] = ["X1", "X2"] :=
  ⟨rfl, rfl, rfl, rfl, by decide⟩

/-! ## The inferred test range -/

/-- C23: when no test range is given and the training range `[s, e)` over `N` rows
passes the validation (`s < N`, `s <= e <= N`), the run goes on with the test range
`[0, s)` if `s > 0`, else `[e, N)` if `e < N`, else `[0, 0)`; this test range is a
valid Range (`0 <= start <= end <= N`) and no row belongs to both ranges. -/
theorem inferred_test_range (s e N : Nat) (hs : s < N) (hse : s ≤ e) (he : e ≤ N) :
    ∃ te, mainRanges (some ⟨s, e⟩) none N = MainOutcome.proceed ⟨s, e⟩ te ∧
      te = (if s > 0 then ⟨0, s⟩ else if e < N then ⟨e, N⟩ else ⟨0, 0⟩) ∧
      0 ≤ te.Start ∧ te.Start ≤ te.End ∧ te.End ≤ N ∧
      ∀ i, ¬ ((te.Start ≤ i ∧ i < te.End) ∧ (s ≤ i ∧ i < e)) := by
  have h1 : ¬ (s ≥ N ∨ e > N) := by omega
  have h2 : ¬ (s > e) := by omega
  refine ⟨if s > 0 then ⟨0, s⟩ else if e < N then ⟨e, N⟩ else ⟨0, 0⟩, ?_, rfl, ?_⟩
  · simp only [mainRanges, h1, h2, if_false]
  · by_cases h3 : s > 0
    · simp only [h3, if_true]
      refine ⟨Nat.zero_le _, Nat.zero_le _, by omega, fun i => by omega⟩
    · by_cases h4 : e < N
      · simp only [h3, h4, if_true, if_false]
        refine ⟨Nat.zero_le _, by omega, le_refl _, fun i => by omega⟩
      · simp only [h3, h4, if_false]
        refine ⟨Nat.zero_le _, le_refl _, Nat.zero_le _, fun i => by omega⟩

theorem inferred_test_range_witness :
    ((0 : Nat) < 10 ∧ (0 : Nat) ≤ 7 ∧ (7 : Nat) ≤ 10) ∧
    ∃ te, mainRanges (some ⟨0, 7⟩) none 10 = MainOutcome.proceed ⟨0, 7⟩ te ∧
      te = (if 0 > 0 then ⟨0, 0⟩ else if 7 < 10 then ⟨7, 10⟩ else ⟨0, 0⟩) ∧
      0 ≤ te.Start ∧ te.Start ≤ te.End ∧ te.End ≤ 10 ∧
      ∀ i, ¬ ((te.Start ≤ i ∧ i < te.End) ∧ (0 ≤ i ∧ i < 7)) :=
  ⟨by decide, inferred_test_range 0 7 10 (by decide) (by decide) (by decide)⟩

end Operon
